import Mathlib

/-!
Verification of `sped.c` — a streaming PNG decoder emitting RGB565 rows.

Shallow embedding conventions:
* Bytes are `Nat` values; where the C code relies on fixed-width wraparound
  (`uint8_t` additions in the filter reconstruction, the `uint16_t`
  accumulator), the embedding applies `% 256` / `% 65536` explicitly.
* The zlib/DEFLATE decompressor (`tinfl`) is an external black box in the C
  code; it is modelled as a function `D : List Nat → List Nat × Int` from the
  concatenated IDAT payload to the full decompressed output stream together
  with the final `tinfl` status (`0` = done, negative = failure).  The decode
  loop of the C source consumes that output through the byte-level scanline
  state machine exactly as the source does.
* The uninitialised palette array `pal[256][3]` is modelled by a caller
  supplied function `pal0` (arbitrary initial memory contents).
* Allocation is assumed to succeed (the `AllocFailed` path is not modelled).
-/

namespace Sped

/-- PNG file signature, `png_sig` in the source. -/
def png_sig : List Nat := [137, 80, 78, 71, 13, 10, 26, 10]

/-- Chunk type tag "IHDR" as bytes. -/
def tyIHDR : List Nat := [73, 72, 68, 82]

/-- Chunk type tag "PLTE" as bytes. -/
def tyPLTE : List Nat := [80, 76, 84, 69]

/-- Chunk type tag "tRNS" as bytes. -/
def tyTRNS : List Nat := [116, 82, 78, 83]

/-- Chunk type tag "IDAT" as bytes. -/
def tyIDAT : List Nat := [73, 68, 65, 84]

/-- Chunk type tag "IEND" as bytes. -/
def tyIEND : List Nat := [73, 69, 78, 68]

/-- Read a 4-byte big-endian integer, `r32` in the source. -/
def r32 (p : List Nat) : Nat :=
  ((p.getD 0 0) <<< 24) ||| ((p.getD 1 0) <<< 16) ||| ((p.getD 2 0) <<< 8) ||| p.getD 3 0

/-- Big-endian 4-byte encoding of a natural number (used to build test PNGs). -/
def be32 (n : Nat) : List Nat :=
  [n / 2 ^ 24 % 256, n / 2 ^ 16 % 256, n / 2 ^ 8 % 256, n % 256]

/-- Paeth predictor, `paeth` in the source (PNG filter type 4). -/
def paeth (a b c : Nat) : Nat :=
  let p : Int := (a : Int) + (b : Int) - (c : Int)
  let pa : Nat := (p - (a : Int)).natAbs
  let pb : Nat := (p - (b : Int)).natAbs
  let pc : Nat := (p - (c : Int)).natAbs
  if pa ≤ pb ∧ pa ≤ pc then a else if pb ≤ pc then b else c

/-- Extract RGB from a reconstructed scanline, `get_pixel` in the source.
`bpc` is bytes per channel (1 or 2); for 16-bit channels the high byte is
taken.  The palette is a function from index to an RGB triple. -/
def get_pixel (cur : List Nat) (x ctype bpc : Nat)
    (pal : Nat → Nat × Nat × Nat) : Nat × Nat × Nat :=
  if bpc = 1 then
    match ctype with
    | 0 => (cur.getD x 0, cur.getD x 0, cur.getD x 0)
    | 2 => (cur.getD (x * 3) 0, cur.getD (x * 3 + 1) 0, cur.getD (x * 3 + 2) 0)
    | 3 => pal (cur.getD x 0)
    | 4 => (cur.getD (x * 2) 0, cur.getD (x * 2) 0, cur.getD (x * 2) 0)
    | 6 => (cur.getD (x * 4) 0, cur.getD (x * 4 + 1) 0, cur.getD (x * 4 + 2) 0)
    | _ => (0, 0, 0)
  else
    match ctype with
    | 0 => (cur.getD (x * 2) 0, cur.getD (x * 2) 0, cur.getD (x * 2) 0)
    | 2 => (cur.getD (x * 6) 0, cur.getD (x * 6 + 2) 0, cur.getD (x * 6 + 4) 0)
    | 4 => (cur.getD (x * 4) 0, cur.getD (x * 4) 0, cur.getD (x * 4) 0)
    | 6 => (cur.getD (x * 8) 0, cur.getD (x * 8 + 2) 0, cur.getD (x * 8 + 4) 0)
    | _ => (0, 0, 0)

/-- RGB565 packing of an 8-bit `(r, g, b)` triple; the `% 256` reflects the
`uint8_t` arguments in the source. -/
def pack565 (r g b : Nat) : Nat :=
  (((r % 256) &&& 0xF8) <<< 8) ||| (((g % 256) &&& 0xFC) <<< 3) ||| ((b % 256) >>> 3)

/-- Bytes per pixel from color type and bytes per channel: the `switch` on
`ctype` in `sped_decode` (returns `none` for the `default: return -1` arm). -/
def bppOf (ctype bpc : Nat) : Option Nat :=
  match ctype with
  | 0 => some (1 * bpc)
  | 2 => some (3 * bpc)
  | 3 => some 1
  | 4 => some (2 * bpc)
  | 6 => some (4 * bpc)
  | _ => none

/-- One step of the in-place inverse-filter loop of `sped_decode`
(the `for (int i = 0; i < stride; i++)` body): `a` is the already
reconstructed byte `bpp` positions back, `b` is the byte above, `c` the byte
above-left.  All additions are `uint8_t` additions, hence `% 256`. -/
def unfilterStep (f bpp : Nat) (prev : List Nat) (c : List Nat) (i : Nat) : List Nat :=
  let a := if bpp ≤ i then c.getD (i - bpp) 0 else 0
  let b := prev.getD i 0
  let cc := if bpp ≤ i then prev.getD (i - bpp) 0 else 0
  let x := c.getD i 0
  match f with
  | 1 => c.set i ((x + a) % 256)
  | 2 => c.set i ((x + b) % 256)
  | 3 => c.set i ((x + (a + b) / 2) % 256)
  | 4 => c.set i ((x + paeth a b cc) % 256)
  | _ => c

/-- Inverse filter reconstruction of a whole scanline (filters 0–4; other
filter values act as the identity, as in the source's `switch`). -/
def unfilter (f bpp : Nat) (prev c : List Nat) : List Nat :=
  (List.range c.length).foldl (unfilterStep f bpp prev) c

/-- Decoder parameters fixed after header validation. -/
structure Params where
  w : Nat
  h : Nat
  depth : Nat
  ctype : Nat
  bpc : Nat
  bpp : Nat
  stride : Nat
  scale : Nat
  out_w : Nat
  out_h : Nat
  pal : Nat → Nat × Nat × Nat

/-- Mutable state of the decode loop: scanline assembly position, current
filter byte, input row index, output row index, the two scanline buffers,
the downscale accumulator (`uint16_t` lanes) and the emitted callback list
`(y, width, pixels)`. -/
structure DecState where
  sl_pos : Nat
  filterTy : Nat
  row : Nat
  out_row : Nat
  cur : List Nat
  prev : List Nat
  acc : List Nat
  cbs : List (Nat × Nat × List Nat)

/-- RGB565 pixels of a full-resolution row (the `scale == 1` emission loop). -/
def rowPixels (P : Params) (cur : List Nat) : List Nat :=
  (List.range P.w).map (fun x =>
    let t := get_pixel cur x P.ctype P.bpc P.pal
    pack565 t.1 t.2.1 t.2.2)

/-- Accumulate one source pixel into the downscale accumulator
(`acc[ox*3+c] += channel`, with `uint16_t` wraparound). -/
def accAdd (P : Params) (cur : List Nat) (a : List Nat) (x : Nat) : List Nat :=
  let t := get_pixel cur x P.ctype P.bpc P.pal
  let ox := x / P.scale
  let a1 := a.set (ox * 3) ((a.getD (ox * 3) 0 + t.1) % 65536)
  let a2 := a1.set (ox * 3 + 1) ((a1.getD (ox * 3 + 1) 0 + t.2.1) % 65536)
  a2.set (ox * 3 + 2) ((a2.getD (ox * 3 + 2) 0 + t.2.2) % 65536)

/-- Accumulate a whole input row (the `for (x = 0; x < limit && x < w; x++)`
loop of the `scale > 1` path). -/
def accRow (P : Params) (cur : List Nat) (acc : List Nat) : List Nat :=
  (List.range (min (P.out_w * P.scale) P.w)).foldl (accAdd P cur) acc

/-- Emit a downscaled row from the accumulator: divide each lane by
`scale*scale` (the `uint8_t` cast is absorbed by `pack565`'s `% 256`). -/
def emitPixels (P : Params) (acc : List Nat) : List Nat :=
  (List.range P.out_w).map (fun ox =>
    pack565 (acc.getD (ox * 3) 0 / (P.scale * P.scale))
      (acc.getD (ox * 3 + 1) 0 / (P.scale * P.scale))
      (acc.getD (ox * 3 + 2) 0 / (P.scale * P.scale)))

/-- Complete one scanline: inverse-filter it, emit (directly at `scale = 1`,
through the accumulator otherwise), swap `cur`/`prev`, zero the new `cur`,
advance `row` and reset `sl_pos` — the `if (sl_pos > stride)` block of the
source. -/
def applyRow (P : Params) (f : Nat) (body : List Nat) (s : DecState) : DecState :=
  if P.scale = 1 then
    ⟨0, f, s.row + 1, s.out_row, List.replicate P.stride 0,
      unfilter f P.bpp s.prev body, s.acc,
      s.cbs ++ [(s.row, P.w, rowPixels P (unfilter f P.bpp s.prev body))]⟩
  else if s.row % P.scale = P.scale - 1 then
    ⟨0, f, s.row + 1, s.out_row + 1, List.replicate P.stride 0,
      unfilter f P.bpp s.prev body,
      List.replicate (P.out_w * 3) 0,
      s.cbs ++ [(s.out_row, P.out_w,
        emitPixels P (accRow P (unfilter f P.bpp s.prev body) s.acc))]⟩
  else
    ⟨0, f, s.row + 1, s.out_row, List.replicate P.stride 0,
      unfilter f P.bpp s.prev body,
      accRow P (unfilter f P.bpp s.prev body) s.acc, s.cbs⟩

/-- Consume one decompressed byte: the body of the inner
`while (avail > 0 && row < h)` loop.  At `sl_pos = 0` the byte is the filter
type; otherwise it is stored into `cur`, completing the row once
`sl_pos` passes `stride`. -/
def stepByte (P : Params) (s : DecState) (b : Nat) : DecState :=
  if s.row < P.h then
    if s.sl_pos = 0 then
      { s with filterTy := b, sl_pos := 1 }
    else if P.stride < s.sl_pos + 1 then
      applyRow P s.filterTy (s.cur.set (s.sl_pos - 1) b) s
    else
      { s with cur := s.cur.set (s.sl_pos - 1) b, sl_pos := s.sl_pos + 1 }
  else s

/-- Run the scanline state machine over a list of decompressed bytes. -/
def runBytes (P : Params) (s : DecState) (bs : List Nat) : DecState :=
  bs.foldl (stepByte P) s

/-- Initial decoder state: `calloc`ed scanline buffers and accumulator. -/
def initState (P : Params) : DecState :=
  ⟨0, 0, 0, 0, List.replicate P.stride 0, List.replicate P.stride 0,
    List.replicate (P.out_w * 3) 0, []⟩

/-- Row-level view of the state machine: process whole `(filter, body)`
scanlines. -/
def runRows (P : Params) (s : DecState) : List (Nat × List Nat) → DecState
  | [] => s
  | fb :: rest => runRows P (applyRow P fb.1 fb.2 s) rest

/-- Serialize a list of `(filter, body)` scanlines back into the byte stream
the decompressor would deliver. -/
def flattenRows (rows : List (Nat × List Nat)) : List Nat :=
  (rows.map (fun fb => fb.1 :: fb.2)).flatten

/-- Reference reconstruction of all scanlines: the sequence of
inverse-filtered rows, each using the previous reconstructed row. -/
def reconList (P : Params) (prev : List Nat) : List (Nat × List Nat) → List (List Nat)
  | [] => []
  | fb :: rest =>
    let c := unfilter fb.1 P.bpp prev fb.2
    c :: reconList P c rest

/-- Write a run of bytes into a list starting at position `i` (the effect of
the `memcpy` into `cur` described one byte at a time). -/
def setAll (c : List Nat) (i : Nat) : List Nat → List Nat
  | [] => c
  | b :: bs => setAll (c.set i b) (i + 1) bs

/-- Channel selector: 0 = red, 1 = green, 2 = blue. -/
def chanOf (ch : Nat) (t : Nat × Nat × Nat) : Nat :=
  match ch with
  | 0 => t.1
  | 1 => t.2.1
  | _ => t.2.2

/-- Reference value: the sum of one channel of `get_pixel` over the `scale`
source columns feeding output column `ox`, for one reconstructed row. -/
def rowContrib (P : Params) (cur : List Nat) (ox ch : Nat) : Nat :=
  ((List.range P.scale).map (fun j =>
    chanOf ch (get_pixel cur (ox * P.scale + j) P.ctype P.bpc P.pal))).sum

/-- Reference value: the same channel sum over `n` consecutive reconstructed
rows starting at row `r0`. -/
def blockSum (P : Params) (recs : List (List Nat)) (r0 n ox ch : Nat) : Nat :=
  ((List.range n).map (fun i => rowContrib P (recs.getD (r0 + i) []) ox ch)).sum

/-- Reference value: the RGB565 row emitted for output row `q` — each pixel
is the packing of the per-channel floor-average over the
`scale × scale` source block. -/
def blockPix (P : Params) (recs : List (List Nat)) (q : Nat) : List Nat :=
  (List.range P.out_w).map (fun ox =>
    pack565 (blockSum P recs (q * P.scale) P.scale ox 0 / (P.scale * P.scale))
      (blockSum P recs (q * P.scale) P.scale ox 1 / (P.scale * P.scale))
      (blockSum P recs (q * P.scale) P.scale ox 2 / (P.scale * P.scale)))

/-- Chunk-scanner state: palette, palette alpha, collected IDAT payloads. -/
structure ScanSt where
  pal : Nat → Nat × Nat × Nat
  palA : Nat → Nat
  idat : List (List Nat)

/-- Handle one recognised chunk (`PLTE` / `tRNS` / `IDAT`; everything else is
ignored) — the `else if` chain of the chunk-scanning loop.  At most
`SPED_MAX_IDAT = 64` IDAT payloads are recorded. -/
def dispatch (ctype : Nat) (st : ScanSt) (ty data : List Nat) : ScanSt :=
  if ty = tyPLTE then
    let n := min (data.length / 3) 256
    { st with pal := fun j =>
        if j < n then (data.getD (j * 3) 0, data.getD (j * 3 + 1) 0, data.getD (j * 3 + 2) 0)
        else st.pal j }
  else if ty = tyTRNS then
    if ctype = 3 then
      { st with palA := fun i => if i < min data.length 256 then data.getD i 0 else st.palA i }
    else st
  else if ty = tyIDAT then
    if st.idat.length < 64 then { st with idat := st.idat ++ [data] } else st
  else st

/-- Walk the chunk list: stop at a truncated chunk (permissive) or at `IEND`.
Structural recursion on a fuel argument; every iteration consumes at least 12
bytes, so the invariant `cp.length ≤ fuel` guarantees fuel never runs out
before the loop's own exit conditions. -/
def scanChunksF (ctype : Nat) : Nat → ScanSt → List Nat → ScanSt
  | 0, st, _ => st
  | fuel + 1, st, cp =>
    if 12 ≤ cp.length then
      let clen := r32 cp
      if cp.length < 12 + clen then st
      else
        let ty := (cp.drop 4).take 4
        if ty = tyIEND then st
        else scanChunksF ctype fuel (dispatch ctype st ty ((cp.drop 8).take clen))
          (cp.drop (12 + clen))
    else st

/-- Walk the chunk list starting right after the IHDR chunk. -/
def scanChunks (ctype : Nat) (st : ScanSt) (cp : List Nat) : ScanSt :=
  scanChunksF ctype cp.length st cp

/-- One serialized chunk: 4-byte big-endian payload length, 4-byte type,
payload, and a CRC field (the decoder never reads CRCs, so zeros serve). -/
def chunkBytes (c : List Nat × List Nat) : List Nat :=
  be32 c.2.length ++ c.1 ++ c.2 ++ [0, 0, 0, 0]

/-- Serialization of a whole chunk list. -/
def chunksBytes (cs : List (List Nat × List Nat)) : List Nat :=
  (cs.map chunkBytes).flatten

/-- A complete PNG file: signature, an IHDR chunk holding the given 13-byte
payload, then the given chunks. -/
def mkPNG (ihdr : List Nat) (cs : List (List Nat × List Nat)) : List Nat :=
  png_sig ++ be32 13 ++ tyIHDR ++ ihdr ++ [0, 0, 0, 0] ++ chunksBytes cs

/-- Reference chunk walk over a structured chunk list: stop at `IEND`,
dispatch everything else — the chunk-level reading of the scanner loop. -/
def scanList (ctype : Nat) (st : ScanSt) : List (List Nat × List Nat) → ScanSt
  | [] => st
  | c :: cs => if c.1 = tyIEND then st else scanList ctype (dispatch ctype st c.1 c.2) cs

/-- `sped_info` from the source: check the signature and the IHDR chunk
header, then return the raw big-endian width/height fields. -/
def sped_info (png : List Nat) : Option (Nat × Nat) :=
  if png.length < 33 ∨ png.take 8 ≠ png_sig then none
  else
    let p := png.drop 8
    if r32 p ≠ 13 ∨ (p.drop 4).take 4 ≠ tyIHDR then none
    else some (r32 (p.drop 8), r32 (p.drop 12))

/-- The IHDR payload: 13 bytes starting at offset 16 of the file
(`ihdr = p + 8` with `p = base + 8` in the source). -/
def ihdrOf (png : List Nat) : List Nat := (png.drop 8).drop 8

/-- Header validation and chunk scan of `sped_decode` (everything before the
decompression loop).  Returns the decode parameters and the list of IDAT
payloads, or `none` for every `return -1` path.  The source's local
variables `w`, `h`, `depth`, `ctype` are written out as the byte reads they
abbreviate: `w = r32 (ihdrOf png)`, `h = r32 ((ihdrOf png).drop 4)`,
`depth = (ihdrOf png).getD 8 0`, `ctype = (ihdrOf png).getD 9 0`. -/
def decodeParams (pal0 : Nat → Nat × Nat × Nat) (png : List Nat) (scale : Nat) :
    Option (Params × List (List Nat)) :=
  if ¬(scale = 1 ∨ scale = 2 ∨ scale = 4) then none
  else if png.length < 33 ∨ png.take 8 ≠ png_sig then none
  else if r32 (png.drop 8) ≠ 13 ∨ ((png.drop 8).drop 4).take 4 ≠ tyIHDR then none
  else if (ihdrOf png).getD 10 0 ≠ 0 then none
  else if (ihdrOf png).getD 11 0 ≠ 0 then none
  else if (ihdrOf png).getD 12 0 ≠ 0 then none
  else if (ihdrOf png).getD 8 0 ≠ 8 ∧ (ihdrOf png).getD 8 0 ≠ 16 then none
  else if (ihdrOf png).getD 8 0 = 16 ∧ (ihdrOf png).getD 9 0 = 3 then none
  else if r32 (ihdrOf png) = 0 ∨ r32 ((ihdrOf png).drop 4) = 0 then none
  else
    match bppOf ((ihdrOf png).getD 9 0) ((ihdrOf png).getD 8 0 / 8) with
    | none => none
    | some bpp =>
      if r32 (ihdrOf png) / scale = 0 ∨ r32 ((ihdrOf png).drop 4) / scale = 0 then none
      else if (scanChunks ((ihdrOf png).getD 9 0) ⟨pal0, fun _ => 255, []⟩
          (png.drop 33)).idat = [] then none
      else some (⟨r32 (ihdrOf png), r32 ((ihdrOf png).drop 4),
        (ihdrOf png).getD 8 0, (ihdrOf png).getD 9 0, (ihdrOf png).getD 8 0 / 8, bpp,
        r32 (ihdrOf png) * bpp, scale, r32 (ihdrOf png) / scale,
        r32 ((ihdrOf png).drop 4) / scale,
        (scanChunks ((ihdrOf png).getD 9 0) ⟨pal0, fun _ => 255, []⟩ (png.drop 33)).pal⟩,
        (scanChunks ((ihdrOf png).getD 9 0) ⟨pal0, fun _ => 255, []⟩ (png.drop 33)).idat)

/-- `sped_decode` from the source.  `D` is the black-box streaming
decompressor, applied to the concatenation of all IDAT payloads; it returns
the decompressed byte stream and the final `tinfl` status.  The result is the
C return value together with the sequence of row-callback invocations. -/
def sped_decode (D : List Nat → List Nat × Int) (pal0 : Nat → Nat × Nat × Nat)
    (png : List Nat) (scale : Nat) : Int × List (Nat × Nat × List Nat) :=
  match decodeParams pal0 png scale with
  | none => (-1, [])
  | some (P, idats) =>
    let r := D idats.flatten
    let s := runBytes P (initState P) r.1
    if s.row < P.h then (if r.2 < 0 then (-1, s.cbs) else (0, s.cbs))
    else (0, s.cbs)

/-! ### Concrete test images -/

/-- An all-zero palette used as the "initial memory contents" parameter. -/
def pal0c : Nat → Nat × Nat × Nat := fun _ => (0, 0, 0)

/-- The 2×2 RGB (T=2, D=8) test PNG of the spec's concrete scenarios
(signature, IHDR `w=2 h=2 depth=8 ctype=2`, one empty IDAT, IEND;
CRCs are zero — the decoder ignores them). -/
def pngC : List Nat :=
  png_sig ++ be32 13 ++ tyIHDR ++ [0, 0, 0, 2, 0, 0, 0, 2, 8, 2, 0, 0, 0] ++ [0, 0, 0, 0]
    ++ be32 0 ++ tyIDAT ++ [0, 0, 0, 0]
    ++ be32 0 ++ tyIEND ++ [0, 0, 0, 0]

/-- Decompressed scanline stream of `pngC` for the pixels
`(255,0,0), (0,255,0) / (0,0,255), (255,255,255)`, both rows filter 0. -/
def streamC : List Nat := [0, 255, 0, 0, 0, 255, 0] ++ [0, 0, 0, 255, 255, 255, 255]

/-- Black-box decompressor behaviour: emit `streamC` and report done. -/
def Dc : List Nat → List Nat × Int := fun _ => (streamC, 0)

/-- A 33-byte PNG whose IHDR is all zero: width = height = 0, depth 0. -/
def pngZero : List Nat :=
  png_sig ++ be32 13 ++ tyIHDR ++ List.replicate 13 0 ++ [0, 0, 0, 0]

/-- An interlaced 1×1 PNG (interlace byte = 1). -/
def pngI : List Nat :=
  png_sig ++ be32 13 ++ tyIHDR ++ [0, 0, 0, 1, 0, 0, 0, 1, 8, 2, 0, 0, 1] ++ [0, 0, 0, 0]
    ++ be32 0 ++ tyIDAT ++ [0, 0, 0, 0]
    ++ be32 0 ++ tyIEND ++ [0, 0, 0, 0]

/-- The parameters `decodeParams` computes for `pngC` at scale 1. -/
def Pc : Params := ⟨2, 2, 8, 2, 1, 3, 6, 1, 2, 2, pal0c⟩

/-- The parameters `decodeParams` computes for `pngC` at scale 2. -/
def Pc2 : Params := ⟨2, 2, 8, 2, 1, 3, 6, 2, 1, 1, pal0c⟩

/-- The scanlines of `pngC` as `(filter, body)` rows. -/
def rowsC : List (Nat × List Nat) :=
  [(0, [255, 0, 0, 0, 255, 0]), (0, [0, 0, 255, 255, 255, 255])]


/-! ### Forward scanline filter (C6) -/

/-- Modelled from the spec: the predictor for byte `i` of a raw scanline,
over the raw bytes — `a` is the raw byte `bpp` positions back (0 before the
start), `b` the byte above, `c` the byte above-left; filter 1 predicts `a`,
2 predicts `b`, 3 the floor-average `(a + b) / 2`, 4 the Paeth predictor,
and every other filter value predicts 0. -/
def predOf (f bpp : Nat) (prev raw : List Nat) (i : Nat) : Nat :=
  match f with
  | 1 => if bpp ≤ i then raw.getD (i - bpp) 0 else 0
  | 2 => prev.getD i 0
  | 3 => ((if bpp ≤ i then raw.getD (i - bpp) 0 else 0) + prev.getD i 0) / 2
  | 4 => paeth (if bpp ≤ i then raw.getD (i - bpp) 0 else 0) (prev.getD i 0)
      (if bpp ≤ i then prev.getD (i - bpp) 0 else 0)
  | _ => 0

/-- Modelled from the spec: the PNG forward (encoder-side) filter of a raw
scanline — each output byte is the raw byte minus its predictor, modulo
256. -/
def filterScan (f bpp : Nat) (prev raw : List Nat) : List Nat :=
  (List.range raw.length).map
    (fun i => (raw.getD i 0 + 256 - predOf f bpp prev raw i % 256) % 256)

/-- IHDR payload of the 2×2 RGB test image, reused for the chunk-split
scenarios. -/
def ihdrC : List Nat := [0, 0, 0, 2, 0, 0, 0, 2, 8, 2, 0, 0, 0]

/-! ### Small list helpers -/

theorem getD_set_eq (l : List Nat) (i : Nat) (v : Nat) (h : i < l.length) :
    (l.set i v).getD i 0 = v := by
  rw [List.getD_eq_getElem?_getD, List.getElem?_set_self h]
  rfl

theorem getD_set_ne (l : List Nat) {i j : Nat} (v : Nat) (h : i ≠ j) :
    (l.set i v).getD j 0 = l.getD j 0 := by
  rw [List.getD_eq_getElem?_getD, List.getElem?_set_ne h, ← List.getD_eq_getElem?_getD]

theorem getD_lt_of_forall (l : List Nat) (i : Nat) (hb : ∀ b ∈ l, b < 256) :
    l.getD i 0 < 256 := by
  rw [List.getD_eq_getElem?_getD]
  cases hq : l[i]? with
  | none => simp
  | some v =>
    have := List.getElem?_mem hq
    simpa using hb v this

theorem getD_replicate_zero (n i : Nat) : (List.replicate n 0).getD i 0 = 0 := by
  rw [List.getD_eq_getElem?_getD]
  cases hq : (List.replicate n 0)[i]? with
  | none => simp
  | some v =>
    have := List.getElem?_mem hq
    simp only [List.mem_replicate] at this
    simp [this.2]

/-! ### Paeth predictor properties (C7) -/

theorem paeth_aaa (a : Nat) : paeth a a a = a := by
  unfold paeth
  simp only []
  split
  · rfl
  · split <;> rfl

theorem paeth_abb (a b : Nat) : paeth a b b = a := by
  unfold paeth
  simp only []
  split
  · rfl
  · rename_i hn
    exfalso
    apply hn
    constructor <;> omega

theorem paeth_aba (a b : Nat) : paeth a b a = b := by
  unfold paeth
  simp only []
  split
  · rename_i hc
    omega
  · split
    · rfl
    · rename_i h1 h2
      exfalso
      omega

/-- The Paeth predictor always returns one of its three arguments. -/
theorem paeth_cases (a b c : Nat) : paeth a b c = a ∨ paeth a b c = b ∨ paeth a b c = c := by
  unfold paeth
  simp only []
  split
  · exact Or.inl rfl
  · split
    · exact Or.inr (Or.inl rfl)
    · exact Or.inr (Or.inr rfl)

/-- C7: for all bytes `a` and `b`, the Paeth predictor satisfies
`paeth a a a = a`, `paeth a b b = a` and `paeth a b a = b`
(`paeth`, src/sped.c lines 32–41). -/
theorem c7_paeth_identities (a b : Nat) (ha : a < 256) (hb : b < 256) :
    paeth a a a = a ∧ paeth a b b = a ∧ paeth a b a = b :=
  ⟨paeth_aaa a, paeth_abb a b, paeth_aba a b⟩

/-- Witness for C7 at the concrete bytes `a = 200`, `b = 99`. -/
theorem c7_paeth_identities_witness :
    paeth 200 200 200 = 200 ∧ paeth 200 99 99 = 200 ∧ paeth 200 99 200 = 99 :=
  c7_paeth_identities 200 99 (by decide) (by decide)

/-! ### C10: `sped_info` characterization -/

/-- C10: `sped_info` succeeds exactly when the input has length ≥ 33, starts
with the PNG signature, and the chunk at offset 8 declares length 13 with
type IHDR; on success it returns the raw big-endian width and height fields
unchecked.  In particular it succeeds (reporting dimensions 0×0) on
`pngZero`, which `sped_decode` rejects for every decompressor, palette
memory and scale (`sped_info`, src/sped.c lines 74–83). -/
theorem c10_sped_info_characterization :
    (∀ png : List Nat, (sped_info png).isSome ↔
      (33 ≤ png.length ∧ png.take 8 = png_sig ∧
        r32 (png.drop 8) = 13 ∧ ((png.drop 8).drop 4).take 4 = tyIHDR)) ∧
    (∀ png : List Nat,
      33 ≤ png.length → png.take 8 = png_sig →
      r32 (png.drop 8) = 13 → ((png.drop 8).drop 4).take 4 = tyIHDR →
      sped_info png = some (r32 ((png.drop 8).drop 8), r32 ((png.drop 8).drop 12))) ∧
    sped_info pngZero = some (0, 0) ∧
    (∀ (D : List Nat → List Nat × Int) (pal0 : Nat → Nat × Nat × Nat) (scale : Nat),
      sped_decode D pal0 pngZero scale = (-1, [])) := by
  refine ⟨?_, ?_, by decide, ?_⟩
  · intro png
    unfold sped_info
    split
    · rename_i hc
      simp only [Option.isSome_none, Bool.false_eq_true, false_iff]
      intro ⟨h1, h2, _, _⟩
      rcases hc with h | h
      · omega
      · exact h h2
    · rename_i hc
      push_neg at hc
      simp only []
      split
      · rename_i hc2
        simp only [Option.isSome_none, Bool.false_eq_true, false_iff]
        intro ⟨_, _, h3, h4⟩
        rcases hc2 with h | h
        · exact h h3
        · exact h h4
      · rename_i hc2
        push_neg at hc2
        simp only [Option.isSome_some, true_iff]
        exact ⟨by omega, hc.2, hc2.1, hc2.2⟩
  · intro png h1 h2 h3 h4
    unfold sped_info
    rw [if_neg (by push_neg; exact ⟨by omega, h2⟩), if_neg (by push_neg; exact ⟨h3, h4⟩)]
  · intro D pal0 scale
    unfold sped_decode
    by_cases hs : scale = 1 ∨ scale = 2 ∨ scale = 4
    · rcases hs with h | h | h <;> subst h <;> rfl
    · have hnone : decodeParams pal0 pngZero scale = none := by
        unfold decodeParams
        rw [if_pos hs]
      rw [hnone]

/-- Witness for C10: the success branch applied to `pngZero`. -/
theorem c10_sped_info_witness :
    sped_info pngZero =
      some (r32 ((pngZero.drop 8).drop 8), r32 ((pngZero.drop 8).drop 12)) :=
  c10_sped_info_characterization.2.1 pngZero (by decide) (by decide) (by decide) (by decide)

/-! ### C3: the concrete 2×2 image at scale 2 -/

/-- Counterexample for C3: decoding the 2×2 RGB PNG with pixels
`(255,0,0), (0,255,0), (0,0,255), (255,255,255)` at scale 2 emits the single
pixel `0x7BEF`, not `0x8410` as claimed: the per-channel floor-average is
`510 / 4 = 127`, not 128. -/
theorem c3_scale2_counterexample :
    (sped_decode Dc pal0c pngC 2).2 = [(0, 1, [0x7BEF])] ∧ (0x7BEF : Nat) ≠ 0x8410 := by
  constructor
  · decide
  · decide

/-- C3 (amended): decoding the 2×2 RGB PNG above at scale 2 emits exactly one
callback row containing exactly one pixel, whose RGB565 value is `0x7BEF`,
the packing of the floor-average `(127, 127, 127)` of the four source
pixels. -/
theorem c3_scale2_amended :
    sped_decode Dc pal0c pngC 2 = (0, [(0, 1, [0x7BEF])]) ∧
    (0x7BEF : Nat) = pack565 127 127 127 ∧ 127 = (255 + 0 + 0 + 255) / 4 := by
  refine ⟨by decide, by decide, by decide⟩

/-! ### C1 counterexample: early `Done` yields success -/

/-- Counterexample for C1: with a decompressor that signals `Done`
immediately (before any of the `H = 2` scanlines of `pngC` are assembled),
`sped_decode` returns `0` (success), not a nonzero error: the source breaks
out of the loop on `TINFL_STATUS_DONE` and falls through to `return 0`
(src/sped.c lines 301, 309). -/
theorem c1_truncated_counterexample :
    sped_decode (fun _ => ([], 0)) pal0c pngC 1 = (0, []) := by decide

/-! ### Inversion of the header validation -/

/-- `bppOf` yields `none` exactly on unsupported color types. -/
theorem bppOf_none_of_bad (c b : Nat) (h0 : c ≠ 0) (h2 : c ≠ 2) (h3 : c ≠ 3)
    (h4 : c ≠ 4) (h6 : c ≠ 6) : bppOf c b = none := by
  rcases c with _ | _ | _ | _ | _ | _ | _ | c
  · exact absurd rfl h0
  · rfl
  · exact absurd rfl h2
  · exact absurd rfl h3
  · exact absurd rfl h4
  · rfl
  · exact absurd rfl h6
  · rfl

/-- `bppOf` yields at least 1 when the bytes-per-channel count is positive. -/
theorem bppOf_pos (c b v : Nat) (hb : 1 ≤ b) (h : bppOf c b = some v) : 1 ≤ v := by
  rcases c with _ | _ | _ | _ | _ | _ | _ | c <;>
    simp only [bppOf, Option.some_inj, reduceCtorEq] at h <;> omega

/-- Everything that must have held for `decodeParams` to succeed, with the
resulting parameters expressed in terms of the raw header bytes. -/
theorem decodeParams_some (pal0 : Nat → Nat × Nat × Nat) (png : List Nat) (scale : Nat)
    (P : Params) (idats : List (List Nat))
    (h : decodeParams pal0 png scale = some (P, idats)) :
    (scale = 1 ∨ scale = 2 ∨ scale = 4) ∧
    P.w = r32 (ihdrOf png) ∧
    P.h = r32 ((ihdrOf png).drop 4) ∧
    P.depth = (ihdrOf png).getD 8 0 ∧
    P.ctype = (ihdrOf png).getD 9 0 ∧
    (ihdrOf png).getD 10 0 = 0 ∧
    (ihdrOf png).getD 11 0 = 0 ∧
    (ihdrOf png).getD 12 0 = 0 ∧
    (P.depth = 8 ∨ P.depth = 16) ∧
    ¬(P.depth = 16 ∧ P.ctype = 3) ∧
    P.w ≠ 0 ∧ P.h ≠ 0 ∧
    P.bpc = P.depth / 8 ∧
    bppOf P.ctype P.bpc = some P.bpp ∧
    P.stride = P.w * P.bpp ∧
    P.scale = scale ∧
    P.out_w = P.w / scale ∧ P.out_h = P.h / scale ∧
    P.out_w ≠ 0 ∧ P.out_h ≠ 0 ∧
    idats ≠ [] ∧ 1 ≤ P.bpp ∧ 1 ≤ P.stride := by
  rw [decodeParams] at h
  by_cases hscale : scale = 1 ∨ scale = 2 ∨ scale = 4
  case neg => rw [if_pos hscale] at h; exact Option.noConfusion h
  rw [if_neg (not_not_intro hscale)] at h
  by_cases hsig : png.length < 33 ∨ png.take 8 ≠ png_sig
  case pos => rw [if_pos hsig] at h; exact Option.noConfusion h
  rw [if_neg hsig] at h
  by_cases hihdr : r32 (png.drop 8) ≠ 13 ∨ ((png.drop 8).drop 4).take 4 ≠ tyIHDR
  case pos => rw [if_pos hihdr] at h; exact Option.noConfusion h
  rw [if_neg hihdr] at h
  by_cases hc10 : (ihdrOf png).getD 10 0 ≠ 0
  case pos => rw [if_pos hc10] at h; exact Option.noConfusion h
  rw [if_neg hc10] at h
  by_cases hc11 : (ihdrOf png).getD 11 0 ≠ 0
  case pos => rw [if_pos hc11] at h; exact Option.noConfusion h
  rw [if_neg hc11] at h
  by_cases hc12 : (ihdrOf png).getD 12 0 ≠ 0
  case pos => rw [if_pos hc12] at h; exact Option.noConfusion h
  rw [if_neg hc12] at h
  by_cases hdep : (ihdrOf png).getD 8 0 ≠ 8 ∧ (ihdrOf png).getD 8 0 ≠ 16
  case pos => rw [if_pos hdep] at h; exact Option.noConfusion h
  rw [if_neg hdep] at h
  by_cases hd16 : (ihdrOf png).getD 8 0 = 16 ∧ (ihdrOf png).getD 9 0 = 3
  case pos => rw [if_pos hd16] at h; exact Option.noConfusion h
  rw [if_neg hd16] at h
  by_cases hwh : r32 (ihdrOf png) = 0 ∨ r32 ((ihdrOf png).drop 4) = 0
  case pos => rw [if_pos hwh] at h; exact Option.noConfusion h
  rw [if_neg hwh] at h
  cases hbpp : bppOf ((ihdrOf png).getD 9 0) ((ihdrOf png).getD 8 0 / 8) with
  | none =>
    rw [hbpp] at h
    exact Option.noConfusion h
  | some bpp =>
    rw [hbpp] at h
    dsimp only [] at h
    by_cases hout : r32 (ihdrOf png) / scale = 0 ∨ r32 ((ihdrOf png).drop 4) / scale = 0
    case pos => rw [if_pos hout] at h; exact Option.noConfusion h
    rw [if_neg hout] at h
    by_cases hid : (scanChunks ((ihdrOf png).getD 9 0) ⟨pal0, fun _ => 255, []⟩
        (png.drop 33)).idat = []
    case pos => rw [if_pos hid] at h; exact Option.noConfusion h
    rw [if_neg hid] at h
    rw [Option.some_inj] at h
    have hP : P = ⟨r32 (ihdrOf png), r32 ((ihdrOf png).drop 4),
        (ihdrOf png).getD 8 0, (ihdrOf png).getD 9 0, (ihdrOf png).getD 8 0 / 8, bpp,
        r32 (ihdrOf png) * bpp, scale, r32 (ihdrOf png) / scale,
        r32 ((ihdrOf png).drop 4) / scale,
        (scanChunks ((ihdrOf png).getD 9 0) ⟨pal0, fun _ => 255, []⟩ (png.drop 33)).pal⟩ :=
      (congrArg Prod.fst h).symm
    have hI : idats = (scanChunks ((ihdrOf png).getD 9 0) ⟨pal0, fun _ => 255, []⟩
        (png.drop 33)).idat := (congrArg Prod.snd h).symm
    subst hP
    subst hI
    push_neg at hdep hwh hout
    have hdepth : (ihdrOf png).getD 8 0 = 8 ∨ (ihdrOf png).getD 8 0 = 16 := by
      by_cases h8 : (ihdrOf png).getD 8 0 = 8
      · exact Or.inl h8
      · exact Or.inr (hdep h8)
    have hbpc : 1 ≤ (ihdrOf png).getD 8 0 / 8 := by
      rcases hdepth with h8 | h8 <;> rw [h8] <;> decide
    have hbpp1 := bppOf_pos _ _ _ hbpc hbpp
    refine ⟨hscale, rfl, rfl, rfl, rfl, not_ne_iff.mp hc10, not_ne_iff.mp hc11,
      not_ne_iff.mp hc12, hdepth, hd16, hwh.1, hwh.2, rfl, hbpp, rfl, rfl, rfl, rfl,
      hout.1, hout.2, hid, hbpp1, ?_⟩
    have hw1 : 1 ≤ r32 (ihdrOf png) := by
      have := hwh.1
      omega
    calc 1 = 1 * 1 := by omega
    _ ≤ r32 (ihdrOf png) * bpp := Nat.mul_le_mul hw1 hbpp1

/-- C5: `sped_decode` returns an error and never invokes the row callback
whenever any of the listed header conditions is violated.  The conditions are
expressed as the decoder reads them: the IHDR payload is
`(png.drop 8).drop 8`, with width at offset 0, height at 4, bit depth at 8,
color type at 9, compression at 10, filter method at 11, interlace at 12
(src/sped.c lines 88–130). -/
theorem c5_header_validation (D : List Nat → List Nat × Int)
    (pal0 : Nat → Nat × Nat × Nat) (png : List Nat) (scale : Nat)
    (hbad :
      (ihdrOf png).getD 10 0 ≠ 0 ∨
      (ihdrOf png).getD 11 0 ≠ 0 ∨
      (ihdrOf png).getD 12 0 ≠ 0 ∨
      ((ihdrOf png).getD 8 0 ≠ 8 ∧ (ihdrOf png).getD 8 0 ≠ 16) ∨
      ((ihdrOf png).getD 8 0 = 16 ∧ (ihdrOf png).getD 9 0 = 3) ∨
      ((ihdrOf png).getD 9 0 ≠ 0 ∧ (ihdrOf png).getD 9 0 ≠ 2 ∧
        (ihdrOf png).getD 9 0 ≠ 3 ∧ (ihdrOf png).getD 9 0 ≠ 4 ∧
        (ihdrOf png).getD 9 0 ≠ 6) ∨
      r32 (ihdrOf png) = 0 ∨
      r32 ((ihdrOf png).drop 4) = 0 ∨
      ¬(scale = 1 ∨ scale = 2 ∨ scale = 4) ∨
      r32 (ihdrOf png) / scale = 0 ∨
      r32 ((ihdrOf png).drop 4) / scale = 0) :
    sped_decode D pal0 png scale = (-1, []) := by
  unfold sped_decode
  cases hd : decodeParams pal0 png scale with
  | none => rfl
  | some x =>
    exfalso
    obtain ⟨P, idats⟩ := x
    obtain ⟨hscale, hw, hh, hdep, hct, h10, h11, h12, hdepth, hd16, hw0, hh0, hbpc,
      hbpp, hstr, hsc, how, hoh, how0, hoh0, hid, hbpp1, hstr1⟩ :=
      decodeParams_some pal0 png scale P idats hd
    rcases hbad with hb | hb | hb | hb | hb | hb | hb | hb | hb | hb | hb
    · exact hb h10
    · exact hb h11
    · exact hb h12
    · rw [← hdep] at hb
      tauto
    · rw [← hdep, ← hct] at hb
      exact hd16 hb
    · rw [← hct] at hb
      have := bppOf_none_of_bad P.ctype P.bpc hb.1 hb.2.1 hb.2.2.1 hb.2.2.2.1 hb.2.2.2.2
      rw [this] at hbpp
      exact Option.noConfusion hbpp
    · rw [← hw] at hb
      exact hw0 hb
    · rw [← hh] at hb
      exact hh0 hb
    · exact hb hscale
    · rw [← hw] at hb
      exact how0 (how.trans hb)
    · rw [← hh] at hb
      exact hoh0 (hoh.trans hb)

/-- Witness for C5: the interlaced PNG `pngI` is rejected with no callback. -/
theorem c5_header_validation_witness :
    sped_decode (fun _ => ([], 0)) pal0c pngI 1 = (-1, []) :=
  c5_header_validation (fun _ => ([], 0)) pal0c pngI 1 (by decide)

/-! ### Byte-level machine: unfolding lemmas -/

theorem runBytes_nil (P : Params) (s : DecState) : runBytes P s [] = s := rfl

theorem runBytes_cons (P : Params) (s : DecState) (b : Nat) (bs : List Nat) :
    runBytes P s (b :: bs) = runBytes P (stepByte P s b) bs := rfl

theorem runBytes_append (P : Params) (s : DecState) (l1 l2 : List Nat) :
    runBytes P s (l1 ++ l2) = runBytes P (runBytes P s l1) l2 :=
  List.foldl_append _ _ _ _

theorem stepByte_filter (P : Params) (s : DecState) (b : Nat)
    (hrow : s.row < P.h) (hpos : s.sl_pos = 0) :
    stepByte P s b = { s with filterTy := b, sl_pos := 1 } := by
  unfold stepByte
  rw [if_pos hrow, if_pos hpos]

theorem stepByte_complete (P : Params) (s : DecState) (b : Nat)
    (hrow : s.row < P.h) (hpos : 1 ≤ s.sl_pos) (hs : P.stride < s.sl_pos + 1) :
    stepByte P s b = applyRow P s.filterTy (s.cur.set (s.sl_pos - 1) b) s := by
  unfold stepByte
  rw [if_pos hrow, if_neg (by omega), if_pos hs]

theorem stepByte_mid (P : Params) (s : DecState) (b : Nat)
    (hrow : s.row < P.h) (hpos : 1 ≤ s.sl_pos) (hs : ¬P.stride < s.sl_pos + 1) :
    stepByte P s b = { s with cur := s.cur.set (s.sl_pos - 1) b, sl_pos := s.sl_pos + 1 } := by
  unfold stepByte
  rw [if_pos hrow, if_neg (by omega), if_neg hs]

theorem stepByte_stuck (P : Params) (s : DecState) (b : Nat) (hrow : ¬s.row < P.h) :
    stepByte P s b = s := by
  unfold stepByte
  rw [if_neg hrow]

theorem runBytes_stuck (P : Params) : ∀ (bs : List Nat) (s : DecState), P.h ≤ s.row →
    runBytes P s bs = s := by
  intro bs
  induction bs with
  | nil => intro s _; rfl
  | cons b bs ih =>
    intro s h
    rw [runBytes_cons, stepByte_stuck P s b (by omega)]
    exact ih s h

/-- `applyRow` ignores the `sl_pos`, `filterTy` and `cur` fields of its input
state. -/
theorem applyRow_ignore (P : Params) (f : Nat) (body : List Nat) (s : DecState)
    (p2 f2 : Nat) (c2 : List Nat) :
    applyRow P f body ⟨p2, f2, s.row, s.out_row, c2, s.prev, s.acc, s.cbs⟩ =
      applyRow P f body s := rfl

theorem applyRow_base_fields (P : Params) (f : Nat) (body : List Nat) (s : DecState) :
    (applyRow P f body s).row = s.row + 1 ∧ (applyRow P f body s).sl_pos = 0 ∧
    (applyRow P f body s).cur = List.replicate P.stride 0 ∧
    (applyRow P f body s).prev = unfilter f P.bpp s.prev body := by
  unfold applyRow
  split
  · exact ⟨rfl, rfl, rfl, rfl⟩
  · split
    · exact ⟨rfl, rfl, rfl, rfl⟩
    · exact ⟨rfl, rfl, rfl, rfl⟩

/-! ### Writing a scanline body byte by byte -/

theorem setAll_append (body : List Nat) : ∀ (done rest : List Nat),
    body.length ≤ rest.length →
    setAll (done ++ rest) done.length body = done ++ body ++ rest.drop body.length := by
  induction body with
  | nil =>
    intro done rest _
    simp [setAll]
  | cons b bs ih =>
    intro done rest h
    cases rest with
    | nil => simp at h
    | cons r0 rs =>
      rw [setAll]
      have hset : (done ++ r0 :: rs).set done.length b = (done ++ [b]) ++ rs := by
        rw [List.set_append_right _ _ (le_refl _)]
        simp
      rw [hset, show done.length + 1 = (done ++ [b]).length by simp]
      rw [ih (done ++ [b]) rs (by simpa using h)]
      simp

theorem setAll_replicate (body : List Nat) (n : Nat) (h : body.length = n) :
    setAll (List.replicate n 0) 0 body = body := by
  have h2 := setAll_append body [] (List.replicate n 0) (by simp [h])
  simpa [h] using h2

/-- Feeding the remaining bytes of a scanline body completes the row. -/
theorem runBytes_fill (P : Params) : ∀ (bs : List Nat) (b : Nat) (rest : List Nat)
    (s : DecState), s.row < P.h → 1 ≤ s.sl_pos → s.sl_pos + bs.length + 1 = P.stride + 1 →
    runBytes P s ((b :: bs) ++ rest) =
      runBytes P (applyRow P s.filterTy (setAll s.cur (s.sl_pos - 1) (b :: bs)) s) rest := by
  intro bs
  induction bs with
  | nil =>
    intro b rest s hrow hpos hlen
    simp only [List.length_nil] at hlen
    rw [show (([b] : List Nat) ++ rest) = b :: rest from rfl, runBytes_cons,
      stepByte_complete P s b hrow hpos (by omega)]
    rfl
  | cons b2 bs ih =>
    intro b rest s hrow hpos hlen
    simp only [List.length_cons] at hlen
    rw [show ((b :: b2 :: bs) ++ rest) = b :: ((b2 :: bs) ++ rest) from rfl, runBytes_cons,
      stepByte_mid P s b hrow hpos (by omega)]
    rw [ih b2 rest
      ⟨s.sl_pos + 1, s.filterTy, s.row, s.out_row, s.cur.set (s.sl_pos - 1) b,
        s.prev, s.acc, s.cbs⟩ hrow
      (by show 1 ≤ s.sl_pos + 1; omega)
      (by show s.sl_pos + 1 + bs.length + 1 = P.stride + 1; omega)]
    show runBytes P (applyRow P s.filterTy
      (setAll (s.cur.set (s.sl_pos - 1) b) (s.sl_pos + 1 - 1) (b2 :: bs))
      ⟨s.sl_pos + 1, s.filterTy, s.row, s.out_row, s.cur.set (s.sl_pos - 1) b,
        s.prev, s.acc, s.cbs⟩) rest = _
    rw [applyRow_ignore, show s.sl_pos + 1 - 1 = s.sl_pos - 1 + 1 by omega]
    rfl

/-- Feeding one whole scanline (filter byte plus `stride` body bytes) from a
fresh row state performs exactly `applyRow`. -/
theorem runBytes_row (P : Params) (f : Nat) (body rest : List Nat) (s : DecState)
    (hrow : s.row < P.h) (hpos : s.sl_pos = 0)
    (hcur : s.cur = List.replicate P.stride 0)
    (hlen : body.length = P.stride) (hstr : 1 ≤ P.stride) :
    runBytes P s ((f :: body) ++ rest) = runBytes P (applyRow P f body s) rest := by
  cases body with
  | nil =>
    exfalso
    simp at hlen
    omega
  | cons b bs =>
    rw [show ((f :: b :: bs) ++ rest) = f :: ((b :: bs) ++ rest) from rfl, runBytes_cons,
      stepByte_filter P s f hrow hpos]
    rw [runBytes_fill P bs b rest
      ⟨1, f, s.row, s.out_row, s.cur, s.prev, s.acc, s.cbs⟩ hrow (le_refl 1)
      (by simp at hlen ⊢; omega)]
    show runBytes P (applyRow P f (setAll s.cur (1 - 1) (b :: bs))
      ⟨1, f, s.row, s.out_row, s.cur, s.prev, s.acc, s.cbs⟩) rest = _
    rw [applyRow_ignore, hcur, setAll_replicate _ _ hlen]

/-- Feeding a list of whole scanlines runs the row-level machine. -/
theorem runBytes_rows (P : Params) (hstr : 1 ≤ P.stride) :
    ∀ (rows : List (Nat × List Nat)) (rest : List Nat) (s : DecState),
    s.row + rows.length ≤ P.h → s.sl_pos = 0 → s.cur = List.replicate P.stride 0 →
    (∀ fb ∈ rows, (fb.2 : List Nat).length = P.stride) →
    runBytes P s (flattenRows rows ++ rest) = runBytes P (runRows P s rows) rest := by
  intro rows
  induction rows with
  | nil =>
    intro rest s _ _ _ _
    rfl
  | cons fb rbs ih =>
    intro rest s hle hpos hcur hlen
    obtain ⟨f, body⟩ := fb
    rw [show flattenRows ((f, body) :: rbs) = (f :: body) ++ flattenRows rbs from rfl,
      List.append_assoc,
      runBytes_row P f body _ s (by simp at hle; omega) hpos hcur
        (hlen (f, body) (List.mem_cons_self _ _)) hstr]
    rw [show runRows P s ((f, body) :: rbs) = runRows P (applyRow P f body s) rbs from rfl]
    obtain ⟨h1, h2, h3, _⟩ := applyRow_base_fields P f body s
    exact ih rest (applyRow P f body s) (by simp at hle; omega) h2 h3
      (fun fb hm => hlen fb (List.mem_cons_of_mem _ hm))

/-! ### Incomplete rows never emit -/

/-- Body bytes that do not complete the scanline only fill `cur`. -/
theorem runBytes_fill_mid (P : Params) : ∀ (bs : List Nat) (s : DecState),
    s.row < P.h → 1 ≤ s.sl_pos → s.sl_pos + bs.length ≤ P.stride →
    runBytes P s bs =
      { s with cur := setAll s.cur (s.sl_pos - 1) bs, sl_pos := s.sl_pos + bs.length } := by
  intro bs
  induction bs with
  | nil =>
    intro s _ _ _
    show s = _
    simp [setAll]
  | cons b bs ih =>
    intro s hrow hpos hle
    simp only [List.length_cons] at hle
    rw [runBytes_cons, stepByte_mid P s b hrow hpos (by omega)]
    rw [ih ⟨s.sl_pos + 1, s.filterTy, s.row, s.out_row, s.cur.set (s.sl_pos - 1) b,
      s.prev, s.acc, s.cbs⟩ hrow
      (by show 1 ≤ s.sl_pos + 1; omega)
      (by show s.sl_pos + 1 + bs.length ≤ P.stride; omega)]
    show (⟨s.sl_pos + 1 + bs.length, s.filterTy, s.row, s.out_row,
      setAll (s.cur.set (s.sl_pos - 1) b) (s.sl_pos + 1 - 1) bs,
      s.prev, s.acc, s.cbs⟩ : DecState) = _
    rw [show s.sl_pos + 1 - 1 = s.sl_pos - 1 + 1 by omega]
    show _ = (⟨s.sl_pos + (bs.length + 1), s.filterTy, s.row, s.out_row,
      setAll (s.cur.set (s.sl_pos - 1) b) (s.sl_pos - 1 + 1) bs,
      s.prev, s.acc, s.cbs⟩ : DecState)
    rw [show s.sl_pos + 1 + bs.length = s.sl_pos + (bs.length + 1) by omega]

/-- Fewer than a full scanline's worth of bytes emits nothing and completes
no row. -/
theorem runBytes_short (P : Params) (bs : List Nat) (s : DecState)
    (hpos : s.sl_pos = 0) (hle : bs.length ≤ P.stride) :
    (runBytes P s bs).cbs = s.cbs ∧ (runBytes P s bs).row = s.row := by
  cases bs with
  | nil => exact ⟨rfl, rfl⟩
  | cons f body =>
    by_cases hrow : s.row < P.h
    · simp only [List.length_cons] at hle
      rw [runBytes_cons, stepByte_filter P s f hrow hpos]
      rw [runBytes_fill_mid P body
        ⟨1, f, s.row, s.out_row, s.cur, s.prev, s.acc, s.cbs⟩ hrow (le_refl 1)
        (by show 1 + body.length ≤ P.stride; omega)]
      exact ⟨rfl, rfl⟩
    · rw [runBytes_stuck P _ s (by omega)]
      exact ⟨rfl, rfl⟩

/-- The number of rows completed is bounded by the number of whole scanlines
present in the byte stream. -/
theorem runBytes_row_le (P : Params) (hstr : 1 ≤ P.stride) : ∀ (n : Nat) (bs : List Nat)
    (s : DecState), bs.length ≤ n → s.sl_pos = 0 → s.cur = List.replicate P.stride 0 →
    (runBytes P s bs).row ≤ s.row + bs.length / (1 + P.stride) := by
  intro n
  induction n with
  | zero =>
    intro bs s hn hpos _
    have : bs = [] := List.eq_nil_of_length_eq_zero (by omega)
    subst this
    rw [runBytes_nil]
    simp
  | succ n ih =>
    intro bs s hn hpos hcur
    by_cases hshort : bs.length ≤ P.stride
    · rw [(runBytes_short P bs s hpos hshort).2]
      exact Nat.le_add_right _ _
    · by_cases hrow : s.row < P.h
      · obtain ⟨f, tl, rfl⟩ : ∃ f tl, bs = f :: tl := by
          cases bs with
          | nil => simp at hshort
          | cons f tl => exact ⟨f, tl, rfl⟩
        simp only [List.length_cons] at hn hshort
        have htl : tl = tl.take P.stride ++ tl.drop P.stride := (List.take_append_drop _ _).symm
        rw [show (f :: tl) = (f :: tl.take P.stride) ++ tl.drop P.stride by
          rw [List.cons_append]; rw [← htl]]
        rw [show ((f :: tl.take P.stride) ++ tl.drop P.stride) =
          ((f :: tl.take P.stride) ++ tl.drop P.stride) from rfl]
        rw [runBytes_row P f (tl.take P.stride) (tl.drop P.stride) s hrow hpos hcur
          (by rw [List.length_take]; omega) hstr]
        obtain ⟨h1, h2, h3, _⟩ := applyRow_base_fields P f (tl.take P.stride) s
        have hrec := ih (tl.drop P.stride) (applyRow P f (tl.take P.stride) s)
          (by rw [List.length_drop]; omega) h2 h3
        rw [h1] at hrec
        have hdiv : (f :: tl).length / (1 + P.stride) =
            (tl.drop P.stride).length / (1 + P.stride) + 1 := by
          rw [List.length_cons, List.length_drop]
          rw [show tl.length + 1 = (tl.length - P.stride) + (1 + P.stride) by omega]
          exact Nat.add_div_right _ (by omega)
        have hlen2 : ((f :: tl.take P.stride) ++ tl.drop P.stride).length =
            (f :: tl).length := by
          simp only [List.length_append, List.length_cons, List.length_take,
            List.length_drop]
          omega
        rw [hlen2, hdiv]
        omega
      · rw [runBytes_stuck P _ s (by omega)]
        exact Nat.le_add_right _ _

theorem rowPixels_length (P : Params) (cur : List Nat) : (rowPixels P cur).length = P.w := by
  simp [rowPixels]

theorem emitPixels_length (P : Params) (acc : List Nat) :
    (emitPixels P acc).length = P.out_w := by
  simp [emitPixels]

/-- Every callback entry the machine ever emits carries width `out_w` and
exactly `out_w` pixels (at scale 1, `out_w = w`). -/
theorem runBytes_cbs_shape (P : Params) (hw : P.scale = 1 → P.w = P.out_w) :
    ∀ (bs : List Nat) (s : DecState),
    (∀ cb ∈ s.cbs, (cb.2.1 = P.out_w ∧ (cb.2.2 : List Nat).length = P.out_w)) →
    ∀ cb ∈ (runBytes P s bs).cbs, cb.2.1 = P.out_w ∧ (cb.2.2 : List Nat).length = P.out_w := by
  intro bs
  induction bs with
  | nil => intro s hs; exact hs
  | cons b bs ih =>
    intro s hs
    rw [runBytes_cons]
    refine ih (stepByte P s b) ?_
    intro cb hcb
    unfold stepByte at hcb
    split at hcb
    · split at hcb
      · exact hs cb hcb
      · split at hcb
        · unfold applyRow at hcb
          split at hcb
          · rename_i hsc1
            simp only [List.mem_append, List.mem_singleton] at hcb
            rcases hcb with hcb | hcb
            · exact hs cb hcb
            · subst hcb
              refine ⟨hw hsc1, ?_⟩
              show (rowPixels P _).length = P.out_w
              rw [rowPixels_length]
              exact hw hsc1
          · split at hcb
            · simp only [List.mem_append, List.mem_singleton] at hcb
              rcases hcb with hcb | hcb
              · exact hs cb hcb
              · subst hcb
                refine ⟨rfl, ?_⟩
                show (emitPixels P _).length = P.out_w
                exact emitPixels_length P _
            · exact hs cb hcb
        · exact hs cb hcb
    · exact hs cb hcb

/-! ### Running the decode loop on a known decompressor result -/

theorem sped_decode_run (D : List Nat → List Nat × Int) (pal0 : Nat → Nat × Nat × Nat)
    (png : List Nat) (scale : Nat) (P : Params) (idats : List (List Nat))
    (bs : List Nat) (st : Int)
    (hparams : decodeParams pal0 png scale = some (P, idats))
    (hD : D idats.flatten = (bs, st)) :
    sped_decode D pal0 png scale =
      if (runBytes P (initState P) bs).row < P.h then
        (if st < 0 then (-1, (runBytes P (initState P) bs).cbs)
         else (0, (runBytes P (initState P) bs).cbs))
      else (0, (runBytes P (initState P) bs).cbs) := by
  unfold sped_decode
  rw [hparams]
  dsimp only []
  rw [hD]

/-- C1 (amended): if the decompressor signals `Done` (a non-negative final
status) before `H` scanlines' worth of bytes have been produced,
`sped_decode` returns 0 (success) — not a nonzero error — and still no
partial output row is emitted: every emitted callback row carries exactly
`out_w = W / scale` pixels. -/
theorem c1_truncated_amended (D : List Nat → List Nat × Int)
    (pal0 : Nat → Nat × Nat × Nat) (png : List Nat) (scale : Nat)
    (P : Params) (idats : List (List Nat)) (bs : List Nat) (st : Int)
    (hparams : decodeParams pal0 png scale = some (P, idats))
    (hD : D idats.flatten = (bs, st))
    (hdone : 0 ≤ st)
    (hshort : bs.length < P.h * (1 + P.stride)) :
    (sped_decode D pal0 png scale).1 = 0 ∧
    ∀ cb ∈ (sped_decode D pal0 png scale).2,
      cb.2.1 = P.out_w ∧ (cb.2.2 : List Nat).length = P.out_w := by
  obtain ⟨hscale, hw, hh, hdep, hct, h10, h11, h12, hdepth, hd16, hw0, hh0, hbpc,
    hbpp, hstr, hsc, how, hoh, how0, hoh0, hid, hbpp1, hstr1⟩ :=
    decodeParams_some pal0 png scale P idats hparams
  have hwout : P.scale = 1 → P.w = P.out_w := by
    intro h1
    rw [how, hsc.symm.trans h1, Nat.div_one]
  have hrowlt : (runBytes P (initState P) bs).row < P.h := by
    have hle := runBytes_row_le P hstr1 bs.length bs (initState P) (le_refl _) rfl rfl
    have hdivlt : bs.length / (1 + P.stride) < P.h := by
      apply Nat.div_lt_of_lt_mul
      calc bs.length < P.h * (1 + P.stride) := hshort
      _ = (1 + P.stride) * P.h := Nat.mul_comm _ _
    have hinit : (initState P).row = 0 := rfl
    omega
  rw [sped_decode_run D pal0 png scale P idats bs st hparams hD,
    if_pos hrowlt, if_neg (by omega)]
  refine ⟨rfl, ?_⟩
  exact runBytes_cbs_shape P hwout bs (initState P) (by intro cb hcb; simp [initState] at hcb)

/-- Witness for C1 (amended): the concrete truncated decode of
`c1_truncated_counterexample` satisfies the amended statement. -/
theorem c1_truncated_amended_witness :
    (sped_decode (fun _ => ([], 0)) pal0c pngC 1).1 = 0 ∧
    ∀ cb ∈ (sped_decode (fun _ => ([], 0)) pal0c pngC 1).2,
      cb.2.1 = Pc.out_w ∧ (cb.2.2 : List Nat).length = Pc.out_w :=
  c1_truncated_amended (fun _ => ([], 0)) pal0c pngC 1 Pc [[]] [] 0
    rfl rfl (by decide) (by decide)

/-! ### Accumulator lane analysis -/

theorem accAdd_length (P : Params) (cur a : List Nat) (x : Nat) :
    (accAdd P cur a x).length = a.length := by
  simp [accAdd]

theorem accAdd_getD (P : Params) (cur a : List Nat) (x ox ch : Nat)
    (hch : ch < 3) (hlen : ox * 3 + ch < a.length) :
    (accAdd P cur a x).getD (ox * 3 + ch) 0 =
      if x / P.scale = ox
      then (a.getD (ox * 3 + ch) 0 +
        chanOf ch (get_pixel cur x P.ctype P.bpc P.pal)) % 65536
      else a.getD (ox * 3 + ch) 0 := by
  unfold accAdd
  by_cases hx : x / P.scale = ox
  · rw [if_pos hx, hx]
    rcases ch with _ | _ | _ | n
    · simp only [Nat.add_zero] at hlen ⊢
      rw [getD_set_ne _ _ (by omega), getD_set_ne _ _ (by omega),
        getD_set_eq _ _ _ (by omega)]
      rfl
    · rw [getD_set_ne _ _ (by omega),
        getD_set_eq _ _ _ (by rw [List.length_set]; omega),
        getD_set_ne _ _ (by omega)]
      rfl
    · rw [getD_set_eq _ _ _ (by rw [List.length_set, List.length_set]; omega),
        getD_set_ne _ _ (by omega), getD_set_ne _ _ (by omega)]
      rfl
    · omega
  · rw [if_neg hx]
    rw [getD_set_ne _ _ (by omega), getD_set_ne _ _ (by omega),
      getD_set_ne _ _ (by omega)]

/-- Accumulating pixels whose output column differs from `ox` leaves the
`ox` lanes untouched. -/
theorem accFold_ne (P : Params) (cur : List Nat) (ox ch : Nat)
    (hch : ch < 3) : ∀ (xs : List Nat) (a : List Nat),
    ox * 3 + ch < a.length → (∀ x ∈ xs, x / P.scale ≠ ox) →
    (xs.foldl (accAdd P cur) a).getD (ox * 3 + ch) 0 = a.getD (ox * 3 + ch) 0 := by
  intro xs
  induction xs with
  | nil => intro a _ _; rfl
  | cons x xs ih =>
    intro a hlen hx
    rw [List.foldl_cons]
    rw [ih (accAdd P cur a x) (by rw [accAdd_length]; exact hlen)
      (fun y hy => hx y (List.mem_cons_of_mem _ hy))]
    rw [accAdd_getD P cur a x ox ch hch hlen,
      if_neg (hx x (List.mem_cons_self _ _))]

theorem accFold_length (P : Params) (cur : List Nat) : ∀ (xs : List Nat) (a : List Nat),
    (xs.foldl (accAdd P cur) a).length = a.length := by
  intro xs
  induction xs with
  | nil => intro a; rfl
  | cons x xs ih =>
    intro a
    rw [List.foldl_cons, ih, accAdd_length]

/-- Accumulating the `scale` pixels of output column `ox` adds the channel
sum (modulo 2^16). -/
theorem accFold_mid (P : Params) (cur : List Nat) (ox ch : Nat)
    (hch : ch < 3) : ∀ (js : List Nat) (a : List Nat),
    ox * 3 + ch < a.length → a.getD (ox * 3 + ch) 0 < 65536 →
    (∀ j ∈ js, j < P.scale) → 1 ≤ P.scale →
    ((js.map (fun j => ox * P.scale + j)).foldl (accAdd P cur) a).getD (ox * 3 + ch) 0 =
      (a.getD (ox * 3 + ch) 0 +
        ((js.map (fun j =>
          chanOf ch (get_pixel cur (ox * P.scale + j) P.ctype P.bpc P.pal))).sum)) % 65536 := by
  intro js
  induction js with
  | nil =>
    intro a hlen hlt _ _
    simp only [List.map_nil, List.foldl_nil, List.sum_nil, Nat.add_zero]
    omega
  | cons j js ih =>
    intro a hlen hlt hjs hs
    simp only [List.map_cons, List.foldl_cons, List.sum_cons]
    have hdiv : (ox * P.scale + j) / P.scale = ox := by
      rw [Nat.add_comm, Nat.mul_comm]
      rw [Nat.add_mul_div_left _ _ (by omega)]
      rw [Nat.div_eq_of_lt (hjs j (List.mem_cons_self _ _))]
      omega
    rw [ih (accAdd P cur a (ox * P.scale + j))
      (by rw [accAdd_length]; exact hlen)
      (by rw [accAdd_getD P cur a _ ox ch hch hlen, if_pos hdiv]; exact Nat.mod_lt _ (by omega))
      (fun y hy => hjs y (List.mem_cons_of_mem _ hy)) hs]
    rw [accAdd_getD P cur a _ ox ch hch hlen, if_pos hdiv]
    rw [Nat.mod_add_mod]
    rw [Nat.add_assoc]

/-- One full row accumulation adds exactly the channel sum of the `scale`
source columns of `ox` (modulo 2^16). -/
theorem accRow_getD (P : Params) (cur acc : List Nat) (ox ch : Nat)
    (hch : ch < 3) (hox : ox < P.out_w) (hlen : acc.length = P.out_w * 3)
    (hlt : acc.getD (ox * 3 + ch) 0 < 65536) (hs : 1 ≤ P.scale)
    (hlim : P.out_w * P.scale ≤ P.w) :
    (accRow P cur acc).getD (ox * 3 + ch) 0 =
      (acc.getD (ox * 3 + ch) 0 + rowContrib P cur ox ch) % 65536 := by
  unfold accRow
  rw [Nat.min_eq_left hlim]
  have hAs : ox * P.scale + P.scale ≤ P.out_w * P.scale := by
    have h1 : (ox + 1) * P.scale ≤ P.out_w * P.scale := Nat.mul_le_mul_right _ hox
    rw [Nat.succ_mul] at h1
    exact h1
  have hsplit : P.out_w * P.scale =
      (ox * P.scale + P.scale) + (P.out_w * P.scale - (ox * P.scale + P.scale)) := by
    omega
  rw [hsplit, List.range_add, List.range_add, List.append_assoc,
    List.foldl_append, List.foldl_append]
  have hne1 : ((List.range (ox * P.scale)).foldl (accAdd P cur) acc).getD
      (ox * 3 + ch) 0 = acc.getD (ox * 3 + ch) 0 := by
    apply accFold_ne P cur ox ch hch _ _ (by omega)
    intro x hx
    rw [List.mem_range] at hx
    intro hdx
    have : x / P.scale < ox := Nat.div_lt_of_lt_mul (by rw [Nat.mul_comm]; exact hx)
    omega
  have hlen1 : ((List.range (ox * P.scale)).foldl (accAdd P cur) acc).length =
      P.out_w * 3 := by
    rw [accFold_length]
    exact hlen
  have hne2 : ∀ x ∈ (List.range (P.out_w * P.scale - (ox * P.scale + P.scale))).map
      (fun y => ox * P.scale + P.scale + y), x / P.scale ≠ ox := by
    intro x hx
    rw [List.mem_map] at hx
    obtain ⟨y, _, rfl⟩ := hx
    intro hdx
    have hge : ox + 1 ≤ (ox * P.scale + P.scale + y) / P.scale := by
      have h1 : ox * P.scale + P.scale ≤ ox * P.scale + P.scale + y := by omega
      have h2 := Nat.div_le_div_right (c := P.scale) h1
      have h3 : (ox * P.scale + P.scale) / P.scale = ox + 1 := by
        rw [show ox * P.scale + P.scale = (ox + 1) * P.scale by rw [Nat.succ_mul]]
        exact Nat.mul_div_cancel _ (by omega)
      omega
    omega
  rw [accFold_ne P cur ox ch hch _ _ (by rw [accFold_length, accFold_length]; omega) hne2]
  rw [accFold_mid P cur ox ch hch (List.range P.scale) _ (by omega) (by rw [hne1]; exact hlt)
    (fun j hj => List.mem_range.mp hj) hs]
  rw [hne1]
  rfl

/-! ### Byte bounds through the pipeline -/

theorem list_sum_le (l : List Nat) (n : Nat) (h : ∀ x ∈ l, x ≤ n) :
    l.sum ≤ l.length * n := by
  induction l with
  | nil => simp
  | cons x xs ih =>
    rw [List.sum_cons, List.length_cons]
    have h1 := h x (List.mem_cons_self _ _)
    have h2 := ih (fun y hy => h y (List.mem_cons_of_mem _ hy))
    calc x + xs.sum ≤ n + xs.length * n := Nat.add_le_add h1 h2
    _ = (xs.length + 1) * n := by ring

theorem unfilter_bytes_lt (f bpp : Nat) (prev : List Nat) :
    ∀ (l : List Nat) (c : List Nat), (∀ b ∈ c, b < 256) →
    ∀ b ∈ l.foldl (unfilterStep f bpp prev) c, b < 256 := by
  intro l
  induction l with
  | nil => intro c hc; exact hc
  | cons i l ih =>
    intro c hc
    rw [List.foldl_cons]
    apply ih
    intro b hb
    unfold unfilterStep at hb
    rcases f with _ | _ | _ | _ | _ | f
    · exact hc b hb
    · rcases List.mem_or_eq_of_mem_set hb with h | h
      · exact hc b h
      · subst h
        exact Nat.mod_lt _ (by omega)
    · rcases List.mem_or_eq_of_mem_set hb with h | h
      · exact hc b h
      · subst h
        exact Nat.mod_lt _ (by omega)
    · rcases List.mem_or_eq_of_mem_set hb with h | h
      · exact hc b h
      · subst h
        exact Nat.mod_lt _ (by omega)
    · rcases List.mem_or_eq_of_mem_set hb with h | h
      · exact hc b h
      · subst h
        exact Nat.mod_lt _ (by omega)
    · exact hc b hb

theorem unfilter_lt (f bpp : Nat) (prev c : List Nat) (hc : ∀ b ∈ c, b < 256) :
    ∀ b ∈ unfilter f bpp prev c, b < 256 :=
  unfilter_bytes_lt f bpp prev (List.range c.length) c hc

theorem get_pixel_comp_lt (cur : List Nat) (x ctype bpc : Nat)
    (pal : Nat → Nat × Nat × Nat) (hc : ∀ b ∈ cur, b < 256)
    (hpal : ∀ i, (pal i).1 < 256 ∧ (pal i).2.1 < 256 ∧ (pal i).2.2 < 256) :
    (get_pixel cur x ctype bpc pal).1 < 256 ∧
    (get_pixel cur x ctype bpc pal).2.1 < 256 ∧
    (get_pixel cur x ctype bpc pal).2.2 < 256 := by
  have hg : ∀ i, cur.getD i 0 < 256 := fun i => getD_lt_of_forall cur i hc
  unfold get_pixel
  split <;> split <;> refine ⟨?_, ?_, ?_⟩ <;>
    first
      | exact hg _
      | exact (hpal _).1
      | exact (hpal _).2.1
      | exact (hpal _).2.2
      | decide

theorem chanOf_get_pixel_lt (cur : List Nat) (x ctype bpc : Nat)
    (pal : Nat → Nat × Nat × Nat) (hc : ∀ b ∈ cur, b < 256)
    (hpal : ∀ i, (pal i).1 < 256 ∧ (pal i).2.1 < 256 ∧ (pal i).2.2 < 256)
    (ch : Nat) : chanOf ch (get_pixel cur x ctype bpc pal) < 256 := by
  obtain ⟨h1, h2, h3⟩ := get_pixel_comp_lt cur x ctype bpc pal hc hpal
  rcases ch with _ | _ | ch
  · exact h1
  · exact h2
  · exact h3

theorem rowContrib_le (P : Params) (cur : List Nat) (ox ch : Nat)
    (hc : ∀ b ∈ cur, b < 256)
    (hpal : ∀ i, (P.pal i).1 < 256 ∧ (P.pal i).2.1 < 256 ∧ (P.pal i).2.2 < 256) :
    rowContrib P cur ox ch ≤ P.scale * 255 := by
  unfold rowContrib
  have h := list_sum_le ((List.range P.scale).map (fun j =>
    chanOf ch (get_pixel cur (ox * P.scale + j) P.ctype P.bpc P.pal))) 255 ?_
  · simpa using h
  · intro v hv
    rw [List.mem_map] at hv
    obtain ⟨j, _, rfl⟩ := hv
    have := chanOf_get_pixel_lt cur (ox * P.scale + j) P.ctype P.bpc P.pal hc hpal ch
    omega

theorem blockSum_le (P : Params) (recs : List (List Nat)) (r0 n ox ch : Nat)
    (hc : ∀ r, ∀ b ∈ recs.getD r [], b < 256)
    (hpal : ∀ i, (P.pal i).1 < 256 ∧ (P.pal i).2.1 < 256 ∧ (P.pal i).2.2 < 256) :
    blockSum P recs r0 n ox ch ≤ n * (P.scale * 255) := by
  unfold blockSum
  have h := list_sum_le ((List.range n).map (fun i =>
    rowContrib P (recs.getD (r0 + i) []) ox ch)) (P.scale * 255) ?_
  · simpa using h
  · intro v hv
    rw [List.mem_map] at hv
    obtain ⟨i, _, rfl⟩ := hv
    exact rowContrib_le P _ ox ch (hc _) hpal

theorem blockSum_zero (P : Params) (recs : List (List Nat)) (r0 ox ch : Nat) :
    blockSum P recs r0 0 ox ch = 0 := rfl

theorem blockSum_succ (P : Params) (recs : List (List Nat)) (r0 n ox ch : Nat) :
    blockSum P recs r0 (n + 1) ox ch =
      blockSum P recs r0 n ox ch + rowContrib P (recs.getD (r0 + n) []) ox ch := by
  unfold blockSum
  rw [List.range_succ, List.map_append, List.sum_append]
  simp

/-! ### Reference reconstruction list -/

theorem reconList_nil (P : Params) (prev : List Nat) : reconList P prev [] = [] := rfl

theorem reconList_cons (P : Params) (prev : List Nat) (fb : Nat × List Nat)
    (rest : List (Nat × List Nat)) :
    reconList P prev (fb :: rest) =
      unfilter fb.1 P.bpp prev fb.2 ::
        reconList P (unfilter fb.1 P.bpp prev fb.2) rest := rfl

theorem reconList_length (P : Params) : ∀ (rows : List (Nat × List Nat)) (prev : List Nat),
    (reconList P prev rows).length = rows.length := by
  intro rows
  induction rows with
  | nil => intro prev; rfl
  | cons fb rest ih =>
    intro prev
    rw [reconList_cons, List.length_cons, List.length_cons, ih]

theorem reconList_bytes_lt (P : Params) : ∀ (rows : List (Nat × List Nat)) (prev : List Nat),
    (∀ fb ∈ rows, ∀ b ∈ fb.2, b < 256) →
    ∀ r, ∀ b ∈ (reconList P prev rows).getD r [], b < 256 := by
  intro rows
  induction rows with
  | nil =>
    intro prev _ r b hb
    simp only [reconList_nil] at hb
    rw [List.getD_eq_getElem?_getD] at hb
    simp at hb
  | cons fb rest ih =>
    intro prev hrows r b hb
    rw [reconList_cons] at hb
    cases r with
    | zero =>
      rw [List.getD_eq_getElem?_getD] at hb
      simp only [List.getElem?_cons_zero, Option.getD_some] at hb
      exact unfilter_lt fb.1 P.bpp prev fb.2
        (hrows fb (List.mem_cons_self _ _)) b hb
    | succ r =>
      rw [List.getD_eq_getElem?_getD] at hb
      simp only [List.getElem?_cons_succ] at hb
      rw [← List.getD_eq_getElem?_getD] at hb
      exact ih _ (fun fb2 h2 => hrows fb2 (List.mem_cons_of_mem _ h2)) r b hb

/-! ### Row-level step case analysis -/

theorem applyRow_scale1 (P : Params) (f : Nat) (body : List Nat) (s : DecState)
    (hsc : P.scale = 1) :
    applyRow P f body s = ⟨0, f, s.row + 1, s.out_row, List.replicate P.stride 0,
      unfilter f P.bpp s.prev body, s.acc,
      s.cbs ++ [(s.row, P.w, rowPixels P (unfilter f P.bpp s.prev body))]⟩ := by
  unfold applyRow
  rw [if_pos hsc]

theorem applyRow_emit (P : Params) (f : Nat) (body : List Nat) (s : DecState)
    (hsc : P.scale ≠ 1) (hrm : s.row % P.scale = P.scale - 1) :
    applyRow P f body s = ⟨0, f, s.row + 1, s.out_row + 1, List.replicate P.stride 0,
      unfilter f P.bpp s.prev body, List.replicate (P.out_w * 3) 0,
      s.cbs ++ [(s.out_row, P.out_w,
        emitPixels P (accRow P (unfilter f P.bpp s.prev body) s.acc))]⟩ := by
  unfold applyRow
  rw [if_neg hsc, if_pos hrm]

theorem applyRow_noemit (P : Params) (f : Nat) (body : List Nat) (s : DecState)
    (hsc : P.scale ≠ 1) (hrm : ¬s.row % P.scale = P.scale - 1) :
    applyRow P f body s = ⟨0, f, s.row + 1, s.out_row, List.replicate P.stride 0,
      unfilter f P.bpp s.prev body,
      accRow P (unfilter f P.bpp s.prev body) s.acc, s.cbs⟩ := by
  unfold applyRow
  rw [if_neg hsc, if_neg hrm]

theorem runRows_nil (P : Params) (s : DecState) : runRows P s [] = s := rfl

theorem runRows_cons (P : Params) (s : DecState) (fb : Nat × List Nat)
    (rest : List (Nat × List Nat)) :
    runRows P s (fb :: rest) = runRows P (applyRow P fb.1 fb.2 s) rest := rfl

theorem runRows_append (P : Params) : ∀ (l1 l2 : List (Nat × List Nat)) (s : DecState),
    runRows P s (l1 ++ l2) = runRows P (runRows P s l1) l2 := by
  intro l1
  induction l1 with
  | nil => intro l2 s; rfl
  | cons fb l1 ih =>
    intro l2 s
    rw [List.cons_append, runRows_cons, runRows_cons, ih]

theorem take_succ_getD (rows : List (Nat × List Nat)) (k : Nat) (hk : k < rows.length) :
    rows.take (k + 1) = rows.take k ++ [rows.getD k (0, [])] := by
  rw [List.take_succ, List.getD_eq_getElem rows (0, []) hk, List.getElem?_eq_getElem hk]
  rfl

theorem reconList_getD (P : Params) : ∀ (rows : List (Nat × List Nat)) (prev : List Nat)
    (k : Nat), k < rows.length →
    (reconList P prev rows).getD k [] =
      unfilter (rows.getD k (0, [])).1 P.bpp
        (if k = 0 then prev else (reconList P prev rows).getD (k - 1) [])
        (rows.getD k (0, [])).2 := by
  intro rows
  induction rows with
  | nil =>
    intro prev k hk
    simp at hk
  | cons fb rest ih =>
    intro prev k hk
    rw [reconList_cons]
    cases k with
    | zero =>
      rw [if_pos rfl]
      rfl
    | succ k =>
      rw [if_neg (by omega)]
      rw [List.getD_cons_succ, List.getD_cons_succ]
      rw [ih (unfilter fb.1 P.bpp prev fb.2) k (by simp at hk; omega)]
      cases k with
      | zero =>
        rw [if_pos rfl]
        rfl
      | succ k2 =>
        rw [if_neg (by omega)]
        rfl

theorem accRow_length (P : Params) (cur acc : List Nat) :
    (accRow P cur acc).length = acc.length := by
  unfold accRow
  rw [accFold_length]

/-! ### Full characterization of the row machine at scale 1 -/

theorem runRows_scale1 (P : Params) (hsc : P.scale = 1) :
    ∀ (rows : List (Nat × List Nat)) (s : DecState),
    (runRows P s rows).cbs = s.cbs ++ (List.range rows.length).map (fun i =>
      (s.row + i, P.w, rowPixels P ((reconList P s.prev rows).getD i []))) ∧
    (runRows P s rows).row = s.row + rows.length := by
  intro rows
  induction rows with
  | nil =>
    intro s
    constructor
    · simp [runRows_nil]
    · simp [runRows_nil]
  | cons fb rest ih =>
    intro s
    obtain ⟨f, body⟩ := fb
    rw [runRows_cons]
    show (runRows P (applyRow P f body s) rest).cbs = _ ∧
      (runRows P (applyRow P f body s) rest).row = _
    rw [applyRow_scale1 P f body s hsc]
    obtain ⟨ih1, ih2⟩ := ih ⟨0, f, s.row + 1, s.out_row, List.replicate P.stride 0,
      unfilter f P.bpp s.prev body, s.acc,
      s.cbs ++ [(s.row, P.w, rowPixels P (unfilter f P.bpp s.prev body))]⟩
    constructor
    · rw [ih1]
      show (s.cbs ++ [(s.row, P.w, rowPixels P (unfilter f P.bpp s.prev body))]) ++
        (List.range rest.length).map (fun i => (s.row + 1 + i, P.w,
          rowPixels P ((reconList P (unfilter f P.bpp s.prev body) rest).getD i []))) = _
      rw [List.append_assoc, reconList_cons]
      congr 1
      simp only [List.length_cons]
      rw [List.range_succ_eq_map, List.map_cons, List.map_map, List.singleton_append]
      refine congrArg₂ (fun x xs => x :: xs) rfl (List.map_congr_left ?_)
      intro i hi
      have h1 : s.row + 1 + i = s.row + Nat.succ i := by omega
      simp only [Function.comp_apply, List.getD_cons_succ, h1]
    · rw [ih2]
      show s.row + 1 + rest.length = s.row + (rest.length + 1)
      omega

/-! ### Full characterization of the row machine at scale 2 or 4 -/

theorem runRows_scaleN (P : Params) (hsc2 : P.scale = 2 ∨ P.scale = 4)
    (hpal : ∀ i, (P.pal i).1 < 256 ∧ (P.pal i).2.1 < 256 ∧ (P.pal i).2.2 < 256)
    (hlim : P.out_w * P.scale ≤ P.w)
    (rows : List (Nat × List Nat))
    (hbytes : ∀ fb ∈ rows, ∀ b ∈ fb.2, b < 256) :
    ∀ (k : Nat), k ≤ rows.length →
    (runRows P (initState P) (rows.take k)).row = k ∧
    (runRows P (initState P) (rows.take k)).out_row = k / P.scale ∧
    (runRows P (initState P) (rows.take k)).prev =
      (if k = 0 then List.replicate P.stride 0
       else (reconList P (List.replicate P.stride 0) rows).getD (k - 1) []) ∧
    (runRows P (initState P) (rows.take k)).acc.length = P.out_w * 3 ∧
    (∀ ox, ox < P.out_w → ∀ ch, ch < 3 →
      (runRows P (initState P) (rows.take k)).acc.getD (ox * 3 + ch) 0 =
        blockSum P (reconList P (List.replicate P.stride 0) rows)
          (k / P.scale * P.scale) (k % P.scale) ox ch) ∧
    (runRows P (initState P) (rows.take k)).cbs =
      (List.range (k / P.scale)).map (fun q =>
        (q, P.out_w, blockPix P (reconList P (List.replicate P.stride 0) rows) q)) := by
  have hs1 : P.scale ≠ 1 := by rcases hsc2 with h | h <;> omega
  have hs0 : 1 ≤ P.scale := by rcases hsc2 with h | h <;> omega
  have hrecb : ∀ r, ∀ b ∈ (reconList P (List.replicate P.stride 0) rows).getD r [], b < 256 :=
    reconList_bytes_lt P rows _ hbytes
  have hbnd : ∀ n, n ≤ P.scale →
      (n * (P.scale * 255) < 65536 ∧ n * (P.scale * 255) ≤ P.scale * P.scale * 255) := by
    intro n hn
    rcases hsc2 with h | h <;> rw [h] at hn ⊢ <;> omega
  intro k
  induction k with
  | zero =>
    intro _
    refine ⟨rfl, ?_, rfl, ?_, ?_, ?_⟩
    · show (0 : Nat) = 0 / P.scale
      rw [Nat.zero_div]
    · show (List.replicate (P.out_w * 3) 0).length = P.out_w * 3
      rw [List.length_replicate]
    · intro ox hox ch hch
      show (List.replicate (P.out_w * 3) 0).getD (ox * 3 + ch) 0 = _
      rw [getD_replicate_zero]
      rw [Nat.zero_mod]
      rfl
    · show ([] : List (Nat × Nat × List Nat)) = _
      rw [Nat.zero_div]
      rfl
  | succ k ih =>
    intro hk1
    have hk : k < rows.length := by omega
    obtain ⟨h_row, h_out, h_prev, h_alen, h_acc, h_cbs⟩ := ih (by omega)
    rw [take_succ_getD rows k hk, runRows_append]
    have hcur : unfilter (rows.getD k (0, [])).1 P.bpp
        (runRows P (initState P) (rows.take k)).prev (rows.getD k (0, [])).2 =
        (reconList P (List.replicate P.stride 0) rows).getD k [] := by
      rw [h_prev]
      exact (reconList_getD P rows (List.replicate P.stride 0) k hk).symm
    rw [show runRows P (runRows P (initState P) (rows.take k)) [rows.getD k (0, [])] =
      applyRow P (rows.getD k (0, [])).1 (rows.getD k (0, [])).2
        (runRows P (initState P) (rows.take k)) from rfl]
    have hlanelt : ∀ ox, ox < P.out_w → ∀ ch, ch < 3 →
        (runRows P (initState P) (rows.take k)).acc.getD (ox * 3 + ch) 0 < 65536 := by
      intro ox hox ch hch
      rw [h_acc ox hox ch hch]
      have h1 := blockSum_le P (reconList P (List.replicate P.stride 0) rows)
        (k / P.scale * P.scale) (k % P.scale) ox ch hrecb hpal
      have h2 := (hbnd (k % P.scale) (le_of_lt (Nat.mod_lt _ (by omega)))).1
      omega
    have haccnew : ∀ ox, ox < P.out_w → ∀ ch, ch < 3 →
        (accRow P ((reconList P (List.replicate P.stride 0) rows).getD k [])
          (runRows P (initState P) (rows.take k)).acc).getD (ox * 3 + ch) 0 =
        blockSum P (reconList P (List.replicate P.stride 0) rows)
          (k / P.scale * P.scale) (k % P.scale + 1) ox ch := by
      intro ox hox ch hch
      rw [accRow_getD P _ _ ox ch hch hox h_alen (hlanelt ox hox ch hch) hs0 hlim]
      rw [h_acc ox hox ch hch]
      rw [blockSum_succ]
      rw [show k / P.scale * P.scale + k % P.scale = k by
        rw [Nat.mul_comm]
        exact Nat.div_add_mod k P.scale]
      apply Nat.mod_eq_of_lt
      have h1 := blockSum_le P (reconList P (List.replicate P.stride 0) rows)
        (k / P.scale * P.scale) (k % P.scale) ox ch hrecb hpal
      have h2 := rowContrib_le P ((reconList P (List.replicate P.stride 0) rows).getD k [])
        ox ch (hrecb k) hpal
      rcases hsc2 with h | h <;> rw [h] at h1 h2 ⊢ <;> omega
    by_cases hemit : (runRows P (initState P) (rows.take k)).row % P.scale = P.scale - 1
    · rw [applyRow_emit P _ _ _ hs1 hemit]
      rw [h_row] at hemit
      have hdiv1 : (k + 1) / P.scale = k / P.scale + 1 := by
        rcases hsc2 with h | h <;> rw [h] at hemit ⊢ <;> omega
      have hmod1 : (k + 1) % P.scale = 0 := by
        rcases hsc2 with h | h <;> rw [h] at hemit ⊢ <;> omega
      refine ⟨?_, ?_, ?_, ?_, ?_, ?_⟩
      · show (runRows P (initState P) (rows.take k)).row + 1 = k + 1
        rw [h_row]
      · show (runRows P (initState P) (rows.take k)).out_row + 1 = (k + 1) / P.scale
        rw [h_out, hdiv1]
      · show unfilter _ P.bpp _ _ = _
        rw [hcur, if_neg (by omega)]
        rfl
      · show (List.replicate (P.out_w * 3) 0).length = P.out_w * 3
        rw [List.length_replicate]
      · intro ox hox ch hch
        show (List.replicate (P.out_w * 3) 0).getD (ox * 3 + ch) 0 = _
        rw [getD_replicate_zero, hmod1]
        rfl
      · show (runRows P (initState P) (rows.take k)).cbs ++ [_] = _
        rw [h_cbs, h_out, hdiv1, List.range_succ, List.map_append, List.map_cons,
          List.map_nil]
        congr 2
        show ((k / P.scale : Nat), P.out_w, emitPixels P (accRow P _ _)) = _
        rw [hcur]
        congr 1
        congr 1
        unfold emitPixels blockPix
        apply List.map_congr_left
        intro ox hox
        rw [List.mem_range] at hox
        have e0 := haccnew ox hox 0 (by omega)
        have e1 := haccnew ox hox 1 (by omega)
        have e2 := haccnew ox hox 2 (by omega)
        rw [show ox * 3 + 0 = ox * 3 from rfl] at e0
        rw [e0, e1, e2]
        rw [show k % P.scale + 1 = P.scale by
          rcases hsc2 with h | h <;> rw [h] at hemit ⊢ <;> omega]
    · rw [applyRow_noemit P _ _ _ hs1 hemit]
      rw [h_row] at hemit
      have hdiv1 : (k + 1) / P.scale = k / P.scale := by
        rcases hsc2 with h | h <;> rw [h] at hemit ⊢ <;> omega
      have hmod1 : (k + 1) % P.scale = k % P.scale + 1 := by
        rcases hsc2 with h | h <;> rw [h] at hemit ⊢ <;> omega
      refine ⟨?_, ?_, ?_, ?_, ?_, ?_⟩
      · show (runRows P (initState P) (rows.take k)).row + 1 = k + 1
        rw [h_row]
      · show (runRows P (initState P) (rows.take k)).out_row = (k + 1) / P.scale
        rw [h_out, hdiv1]
      · show unfilter _ P.bpp _ _ = _
        rw [hcur, if_neg (by omega)]
        rfl
      · show (accRow P _ _).length = P.out_w * 3
        rw [accRow_length]
        exact h_alen
      · intro ox hox ch hch
        show (accRow P _ _).getD (ox * 3 + ch) 0 = _
        rw [hcur, haccnew ox hox ch hch, hmod1, hdiv1]
      · show (runRows P (initState P) (rows.take k)).cbs = _
        rw [h_cbs, hdiv1]

/-! ### C2: callback count, order and widths -/

theorem getD_map_range {α : Type} (n i : Nat) (f : Nat → α) (d : α) (h : i < n) :
    ((List.range n).map f).getD i d = f i := by
  rw [List.getD_eq_getElem?_getD, List.getElem?_map, List.getElem?_range h]
  rfl

theorem blockPix_length (P : Params) (recs : List (List Nat)) (q : Nat) :
    (blockPix P recs q).length = P.out_w := by
  simp [blockPix]

/-- C2: for every well-formed PNG (one whose header validates) and every
scale in {1, 2, 4}, when the decompressor delivers `H` whole scanlines (plus
arbitrary trailing output), `sped_decode` succeeds and invokes the row
callback exactly `H / scale` times, with `y` arguments `0, 1, …, H/scale − 1`
in increasing order, each invocation carrying width `W / scale` and exactly
`W / scale` pixels (src/sped.c lines 250–289). -/
theorem c2_callback_count (D : List Nat → List Nat × Int) (pal0 : Nat → Nat × Nat × Nat)
    (png : List Nat) (scale : Nat) (P : Params) (idats : List (List Nat))
    (rows : List (Nat × List Nat)) (rest : List Nat) (st : Int)
    (hparams : decodeParams pal0 png scale = some (P, idats))
    (hD : D idats.flatten = (flattenRows rows ++ rest, st))
    (hlen : rows.length = P.h)
    (hbody : ∀ fb ∈ rows, (fb.2 : List Nat).length = P.stride)
    (hbytes : ∀ fb ∈ rows, ∀ b ∈ fb.2, b < 256)
    (hpal : ∀ i, (P.pal i).1 < 256 ∧ (P.pal i).2.1 < 256 ∧ (P.pal i).2.2 < 256) :
    (sped_decode D pal0 png scale).1 = 0 ∧
    (sped_decode D pal0 png scale).2.length = P.h / P.scale ∧
    ∀ i, i < P.h / P.scale →
      ((sped_decode D pal0 png scale).2.getD i (0, 0, [])).1 = i ∧
      ((sped_decode D pal0 png scale).2.getD i (0, 0, [])).2.1 = P.w / P.scale ∧
      ((sped_decode D pal0 png scale).2.getD i (0, 0, [])).2.2.length = P.w / P.scale := by
  obtain ⟨hscale, hw, hh, hdep, hct, h10, h11, h12, hdepth, hd16, hw0, hh0, hbpc,
    hbpp, hstr, hsc, how, hoh, how0, hoh0, hid, hbpp1, hstr1⟩ :=
    decodeParams_some pal0 png scale P idats hparams
  have hps : P.scale = 1 ∨ P.scale = 2 ∨ P.scale = 4 := by rw [hsc]; exact hscale
  have hout_eq : P.out_w = P.w / P.scale := by rw [how, hsc]
  have hlim : P.out_w * P.scale ≤ P.w := by
    rw [how, hsc]
    exact Nat.div_mul_le_self _ _
  have hcbs_prop : (runRows P (initState P) rows).row = P.h ∧
      (runRows P (initState P) rows).cbs.length = P.h / P.scale ∧
      ∀ i, i < P.h / P.scale →
        ((runRows P (initState P) rows).cbs.getD i (0, 0, [])).1 = i ∧
        ((runRows P (initState P) rows).cbs.getD i (0, 0, [])).2.1 = P.w / P.scale ∧
        ((runRows P (initState P) rows).cbs.getD i (0, 0, [])).2.2.length = P.w / P.scale := by
    rcases hps with hs1 | hs2
    · obtain ⟨m1, m2⟩ := runRows_scale1 P hs1 rows (initState P)
      have hdiv : P.h / P.scale = P.h := by rw [hs1, Nat.div_one]
      refine ⟨by rw [m2]; show 0 + rows.length = P.h; omega, ?_, ?_⟩
      · rw [m1]
        show ([] ++ (List.range rows.length).map _).length = _
        rw [List.nil_append, List.length_map, List.length_range, hlen, hdiv]
      · intro i hi
        rw [hdiv] at hi
        rw [m1, show (initState P).cbs = ([] : List (Nat × Nat × List Nat)) from rfl,
          List.nil_append, getD_map_range _ i _ _ (by omega)]
        refine ⟨by show 0 + i = i; omega,
          by show P.w = P.w / P.scale; rw [hs1, Nat.div_one],
          by show (rowPixels P _).length = P.w / P.scale
             rw [rowPixels_length, hs1, Nat.div_one]⟩
    · have hmaster := runRows_scaleN P hs2 hpal hlim rows hbytes rows.length (le_refl _)
      rw [List.take_length] at hmaster
      obtain ⟨m_row, _, _, _, _, m_cbs⟩ := hmaster
      refine ⟨by rw [m_row, hlen], ?_, ?_⟩
      · rw [m_cbs, List.length_map, List.length_range, hlen]
      · intro i hi
        rw [m_cbs]
        rw [getD_map_range _ i _ _ (by rw [hlen]; exact hi)]
        exact ⟨rfl, hout_eq, by rw [blockPix_length]; exact hout_eq⟩
  have hrun : runBytes P (initState P) (flattenRows rows ++ rest) =
      runRows P (initState P) rows := by
    rw [runBytes_rows P hstr1 rows rest (initState P)
      (by show 0 + rows.length ≤ P.h; omega) rfl rfl hbody]
    exact runBytes_stuck P rest _ (by rw [hcbs_prop.1])
  rw [sped_decode_run D pal0 png scale P idats _ st hparams hD, hrun,
    if_neg (by rw [hcbs_prop.1]; omega)]
  exact ⟨rfl, hcbs_prop.2.1, hcbs_prop.2.2⟩

/-- Witness for C2: the concrete 2×2 image decoded at scale 1 emits rows
0 and 1, each of width 2. -/
theorem c2_callback_count_witness :
    (sped_decode Dc pal0c pngC 1).1 = 0 ∧
    (sped_decode Dc pal0c pngC 1).2.length = Pc.h / Pc.scale ∧
    ∀ i, i < Pc.h / Pc.scale →
      ((sped_decode Dc pal0c pngC 1).2.getD i (0, 0, [])).1 = i ∧
      ((sped_decode Dc pal0c pngC 1).2.getD i (0, 0, [])).2.1 = Pc.w / Pc.scale ∧
      ((sped_decode Dc pal0c pngC 1).2.getD i (0, 0, [])).2.2.length = Pc.w / Pc.scale :=
  c2_callback_count Dc pal0c pngC 1 Pc [[]] rowsC [] 0 rfl rfl (by decide) (by decide)
    (by decide)
    (fun i => ⟨by show (0 : Nat) < 256; decide, by show (0 : Nat) < 256; decide,
      by show (0 : Nat) < 256; decide⟩)

/-! ### C4: downscaled pixels are block floor-averages -/

theorem flattenRows_append (l1 l2 : List (Nat × List Nat)) :
    flattenRows (l1 ++ l2) = flattenRows l1 ++ flattenRows l2 := by
  unfold flattenRows
  rw [List.map_append, List.flatten_append]

theorem flattenRows_length (stride : Nat) : ∀ (rows : List (Nat × List Nat)),
    (∀ fb ∈ rows, (fb.2 : List Nat).length = stride) →
    (flattenRows rows).length = rows.length * (1 + stride) := by
  intro rows
  induction rows with
  | nil => intro _; simp [flattenRows]
  | cons fb rest ih =>
    intro hbody
    show ((fb.1 :: fb.2) ++ flattenRows rest).length = _
    rw [List.length_append, List.length_cons, ih (fun x hx => hbody x (List.mem_cons_of_mem _ hx)),
      hbody fb (List.mem_cons_self _ _), List.length_cons]
    ring

theorem flattenRows_take (rows : List (Nat × List Nat)) (k stride : Nat) (tail : List Nat)
    (hbody : ∀ fb ∈ rows, (fb.2 : List Nat).length = stride) (hk : k ≤ rows.length) :
    (flattenRows rows ++ tail).take (k * (1 + stride)) = flattenRows (rows.take k) := by
  have hsplit : flattenRows rows = flattenRows (rows.take k) ++ flattenRows (rows.drop k) := by
    rw [← flattenRows_append, List.take_append_drop]
  have hlen2 : (flattenRows (rows.take k)).length = k * (1 + stride) := by
    rw [flattenRows_length stride _ (fun fb hfb => hbody fb (List.take_subset _ _ hfb))]
    rw [List.length_take]
    congr 1
    omega
  rw [hsplit, List.append_assoc, ← hlen2, List.take_left]

/-- C4: for every well-formed PNG decoded at scale 2 or 4, the output pixel
at `(ox, oy)` is the RGB565 packing of the per-channel floor-average of the
`scale × scale` block of reconstructed source pixels with rows
`oy·scale … oy·scale + scale − 1` and columns `ox·scale … ox·scale + scale − 1`
(columns and rows beyond `out_w·scale` / `out_h·scale` never contribute, as
the value depends only on that block); and after `k` complete input rows the
number of emitted rows is exactly `k / scale`, i.e. a row is emitted exactly
at input rows `r` with `r % scale = scale − 1` (src/sped.c lines 258–282). -/
theorem c4_block_average (D : List Nat → List Nat × Int) (pal0 : Nat → Nat × Nat × Nat)
    (png : List Nat) (scale : Nat) (P : Params) (idats : List (List Nat))
    (rows : List (Nat × List Nat)) (rest : List Nat) (st : Int)
    (hparams : decodeParams pal0 png scale = some (P, idats))
    (hD : D idats.flatten = (flattenRows rows ++ rest, st))
    (hsc2 : P.scale = 2 ∨ P.scale = 4)
    (hlen : rows.length = P.h)
    (hbody : ∀ fb ∈ rows, (fb.2 : List Nat).length = P.stride)
    (hbytes : ∀ fb ∈ rows, ∀ b ∈ fb.2, b < 256)
    (hpal : ∀ i, (P.pal i).1 < 256 ∧ (P.pal i).2.1 < 256 ∧ (P.pal i).2.2 < 256) :
    (∀ oy, oy < P.h / P.scale → ∀ ox, ox < P.w / P.scale →
      ((sped_decode D pal0 png scale).2.getD oy (0, 0, [])).2.2.getD ox 0 =
        pack565
          (blockSum P (reconList P (List.replicate P.stride 0) rows)
            (oy * P.scale) P.scale ox 0 / (P.scale * P.scale))
          (blockSum P (reconList P (List.replicate P.stride 0) rows)
            (oy * P.scale) P.scale ox 1 / (P.scale * P.scale))
          (blockSum P (reconList P (List.replicate P.stride 0) rows)
            (oy * P.scale) P.scale ox 2 / (P.scale * P.scale))) ∧
    (∀ k, k ≤ P.h →
      (runBytes P (initState P)
        ((flattenRows rows ++ rest).take (k * (1 + P.stride)))).cbs.length =
        k / P.scale) := by
  obtain ⟨hscale, hw, hh, hdep, hct, h10, h11, h12, hdepth, hd16, hw0, hh0, hbpc,
    hbpp, hstr, hsc, how, hoh, how0, hoh0, hid, hbpp1, hstr1⟩ :=
    decodeParams_some pal0 png scale P idats hparams
  have hout_eq : P.out_w = P.w / P.scale := by rw [how, hsc]
  have hlim : P.out_w * P.scale ≤ P.w := by
    rw [how, hsc]
    exact Nat.div_mul_le_self _ _
  constructor
  · intro oy hoy ox hox
    have hmaster := runRows_scaleN P hsc2 hpal hlim rows hbytes rows.length (le_refl _)
    rw [List.take_length] at hmaster
    obtain ⟨m_row, _, _, _, _, m_cbs⟩ := hmaster
    have hrun : runBytes P (initState P) (flattenRows rows ++ rest) =
        runRows P (initState P) rows := by
      rw [runBytes_rows P hstr1 rows rest (initState P)
        (by show 0 + rows.length ≤ P.h; omega) rfl rfl hbody]
      exact runBytes_stuck P rest _ (by rw [m_row, hlen])
    rw [sped_decode_run D pal0 png scale P idats _ st hparams hD, hrun,
      if_neg (by rw [m_row, hlen]; omega)]
    show ((runRows P (initState P) rows).cbs.getD oy (0, 0, [])).2.2.getD ox 0 = _
    rw [m_cbs, getD_map_range _ oy _ _ (by rw [hlen]; exact hoy)]
    show (blockPix P (reconList P (List.replicate P.stride 0) rows) oy).getD ox 0 = _
    unfold blockPix
    rw [getD_map_range _ ox _ _ (by rw [← hout_eq] at hox; exact hox)]
  · intro k hk
    have hkr : k ≤ rows.length := by omega
    rw [flattenRows_take rows k P.stride rest hbody hkr]
    have hruns : runBytes P (initState P) (flattenRows (rows.take k)) =
        runRows P (initState P) (rows.take k) := by
      have h2 := runBytes_rows P hstr1 (rows.take k) [] (initState P)
        (by show 0 + (rows.take k).length ≤ P.h; rw [List.length_take]; omega) rfl rfl
        (fun fb hfb => hbody fb (List.take_subset _ _ hfb))
      rw [List.append_nil] at h2
      rw [h2]
      rfl
    rw [hruns]
    have hmaster := runRows_scaleN P hsc2 hpal hlim rows hbytes k hkr
    obtain ⟨_, _, _, _, _, m_cbs⟩ := hmaster
    rw [m_cbs, List.length_map, List.length_range]

/-- Witness for C4: the single output pixel of the 2×2 image at scale 2 is
the packed floor-average of its 2×2 block. -/
theorem c4_block_average_witness :
    ((sped_decode Dc pal0c pngC 2).2.getD 0 (0, 0, [])).2.2.getD 0 0 =
      pack565
        (blockSum Pc2 (reconList Pc2 (List.replicate Pc2.stride 0) rowsC)
          (0 * Pc2.scale) Pc2.scale 0 0 / (Pc2.scale * Pc2.scale))
        (blockSum Pc2 (reconList Pc2 (List.replicate Pc2.stride 0) rowsC)
          (0 * Pc2.scale) Pc2.scale 0 1 / (Pc2.scale * Pc2.scale))
        (blockSum Pc2 (reconList Pc2 (List.replicate Pc2.stride 0) rowsC)
          (0 * Pc2.scale) Pc2.scale 0 2 / (Pc2.scale * Pc2.scale)) :=
  (c4_block_average Dc pal0c pngC 2 Pc2 [[]] rowsC [] 0 rfl rfl (by decide) (by decide)
    (by decide) (by decide)
    (fun i => ⟨by show (0 : Nat) < 256; decide, by show (0 : Nat) < 256; decide,
      by show (0 : Nat) < 256; decide⟩)).1 0 (by decide) 0 (by decide)

/-! ### C8: the downscale accumulator never wraps modulo 2^16 -/

/-- C8: during any decode with scale in {2,4}, every lane of the downscale
accumulator is bounded by `scale² · 255 ≤ 4080 < 2^16`: any full
`scale × scale` block sum is at most `scale² · 255`, and after any number `k`
of complete input rows each lane `(ox, ch)` of the accumulator holds *exactly*
the mod-free partial block sum over the `k mod scale` rows accumulated since
the last emission — even though the embedding reduces every addition modulo
2^16, the value never wraps — so the emitted averages are exact integer
floor-averages (src/sped.c lines 178–180, 260–281). -/
theorem c8_accumulator_bound (D : List Nat → List Nat × Int) (pal0 : Nat → Nat × Nat × Nat)
    (png : List Nat) (scale : Nat) (P : Params) (idats : List (List Nat))
    (rows : List (Nat × List Nat)) (rest : List Nat) (st : Int)
    (hparams : decodeParams pal0 png scale = some (P, idats))
    (hD : D idats.flatten = (flattenRows rows ++ rest, st))
    (hsc2 : P.scale = 2 ∨ P.scale = 4)
    (hlen : rows.length = P.h)
    (hbody : ∀ fb ∈ rows, (fb.2 : List Nat).length = P.stride)
    (hbytes : ∀ fb ∈ rows, ∀ b ∈ fb.2, b < 256)
    (hpal : ∀ i, (P.pal i).1 < 256 ∧ (P.pal i).2.1 < 256 ∧ (P.pal i).2.2 < 256) :
    P.scale * P.scale * 255 ≤ 4080 ∧
    (∀ r0 ox ch, blockSum P (reconList P (List.replicate P.stride 0) rows)
        r0 P.scale ox ch ≤ P.scale * P.scale * 255) ∧
    (∀ k, k ≤ P.h → ∀ ox, ox < P.out_w → ∀ ch, ch < 3 →
      (runBytes P (initState P)
        ((flattenRows rows ++ rest).take (k * (1 + P.stride)))).acc.getD (ox * 3 + ch) 0 =
        blockSum P (reconList P (List.replicate P.stride 0) rows)
          (k / P.scale * P.scale) (k % P.scale) ox ch ∧
      (runBytes P (initState P)
        ((flattenRows rows ++ rest).take (k * (1 + P.stride)))).acc.getD (ox * 3 + ch) 0 ≤
        P.scale * P.scale * 255) := by
  obtain ⟨hscale, hw, hh, hdep, hct, h10, h11, h12, hdepth, hd16, hw0, hh0, hbpc,
    hbpp, hstr, hsc, how, hoh, how0, hoh0, hid, hbpp1, hstr1⟩ :=
    decodeParams_some pal0 png scale P idats hparams
  have hlim : P.out_w * P.scale ≤ P.w := by
    rw [how, hsc]
    exact Nat.div_mul_le_self _ _
  have hrecb : ∀ r, ∀ b ∈ (reconList P (List.replicate P.stride 0) rows).getD r [], b < 256 :=
    reconList_bytes_lt P rows _ hbytes
  refine ⟨by rcases hsc2 with h | h <;> rw [h] <;> decide, ?_, ?_⟩
  · intro r0 ox ch
    have h := blockSum_le P _ r0 P.scale ox ch hrecb hpal
    calc blockSum P (reconList P (List.replicate P.stride 0) rows) r0 P.scale ox ch
        ≤ P.scale * (P.scale * 255) := h
      _ = P.scale * P.scale * 255 := by ring
  · intro k hk ox hox ch hch
    have hkr : k ≤ rows.length := by omega
    rw [flattenRows_take rows k P.stride rest hbody hkr]
    have hruns : runBytes P (initState P) (flattenRows (rows.take k)) =
        runRows P (initState P) (rows.take k) := by
      have h2 := runBytes_rows P hstr1 (rows.take k) [] (initState P)
        (by show 0 + (rows.take k).length ≤ P.h; rw [List.length_take]; omega) rfl rfl
        (fun fb hfb => hbody fb (List.take_subset _ _ hfb))
      rw [List.append_nil] at h2
      rw [h2]
      rfl
    rw [hruns]
    obtain ⟨_, _, _, _, m_acc, _⟩ := runRows_scaleN P hsc2 hpal hlim rows hbytes k hkr
    refine ⟨m_acc ox hox ch hch, ?_⟩
    rw [m_acc ox hox ch hch]
    have h := blockSum_le P _ (k / P.scale * P.scale) (k % P.scale) ox ch hrecb hpal
    have hmod : k % P.scale ≤ P.scale := Nat.le_of_lt (Nat.mod_lt _ (by rcases hsc2 with h | h <;> omega))
    calc blockSum P (reconList P (List.replicate P.stride 0) rows)
          (k / P.scale * P.scale) (k % P.scale) ox ch
        ≤ k % P.scale * (P.scale * 255) := h
      _ ≤ P.scale * (P.scale * 255) := Nat.mul_le_mul_right _ hmod
      _ = P.scale * P.scale * 255 := by ring

/-- Witness for C8: after one input row of the 2×2 image at scale 2, the red
lane of the single accumulator entry holds exactly the mod-free one-row block
sum and is within the 4080 bound. -/
theorem c8_accumulator_bound_witness :
    (runBytes Pc2 (initState Pc2)
      ((flattenRows rowsC ++ []).take (1 * (1 + Pc2.stride)))).acc.getD (0 * 3 + 0) 0 =
      blockSum Pc2 (reconList Pc2 (List.replicate Pc2.stride 0) rowsC)
        (1 / Pc2.scale * Pc2.scale) (1 % Pc2.scale) 0 0 ∧
    (runBytes Pc2 (initState Pc2)
      ((flattenRows rowsC ++ []).take (1 * (1 + Pc2.stride)))).acc.getD (0 * 3 + 0) 0 ≤
      Pc2.scale * Pc2.scale * 255 :=
  (c8_accumulator_bound Dc pal0c pngC 2 Pc2 [[]] rowsC [] 0 rfl rfl (by decide) (by decide)
    (by decide) (by decide)
    (fun i => ⟨by show (0 : Nat) < 256; decide, by show (0 : Nat) < 256; decide,
      by show (0 : Nat) < 256; decide⟩)).2.2 1 (by decide) 0 (by decide) 0 (by decide)

/-! ### C6: forward filter then inverse filter is the identity -/

theorem filterScan_length (f bpp : Nat) (prev raw : List Nat) :
    (filterScan f bpp prev raw).length = raw.length := by
  simp [filterScan]

theorem filterScan_getD (f bpp : Nat) (prev raw : List Nat) (i : Nat)
    (hi : i < raw.length) :
    (filterScan f bpp prev raw).getD i 0 =
      (raw.getD i 0 + 256 - predOf f bpp prev raw i % 256) % 256 :=
  getD_map_range _ i _ _ hi

theorem predOf_lt (f bpp : Nat) (prev raw : List Nat) (i : Nat)
    (hraw : ∀ b ∈ raw, b < 256) (hprev : ∀ b ∈ prev, b < 256) :
    predOf f bpp prev raw i < 256 := by
  have ha : (if bpp ≤ i then raw.getD (i - bpp) 0 else 0) < 256 := by
    split
    · exact getD_lt_of_forall raw _ hraw
    · decide
  have hb : prev.getD i 0 < 256 := getD_lt_of_forall prev _ hprev
  have hc : (if bpp ≤ i then prev.getD (i - bpp) 0 else 0) < 256 := by
    split
    · exact getD_lt_of_forall prev _ hprev
    · decide
  rcases f with _ | _ | _ | _ | _ | f
  · exact (by decide : (0 : Nat) < 256)
  · exact ha
  · exact hb
  · show ((if bpp ≤ i then raw.getD (i - bpp) 0 else 0) + prev.getD i 0) / 2 < 256
    omega
  · show paeth _ _ _ < 256
    rcases paeth_cases (if bpp ≤ i then raw.getD (i - bpp) 0 else 0) (prev.getD i 0)
      (if bpp ≤ i then prev.getD (i - bpp) 0 else 0) with h | h | h <;> omega
  · exact (by decide : (0 : Nat) < 256)

theorem unfilterStep_pred (f : Nat) (hf : f = 1 ∨ f = 2 ∨ f = 3 ∨ f = 4)
    (bpp : Nat) (prev c : List Nat) (i : Nat) :
    unfilterStep f bpp prev c i = c.set i ((c.getD i 0 + predOf f bpp prev c i) % 256) := by
  rcases hf with h | h | h | h <;> subst h <;> rfl

theorem predOf_congr (f bpp : Nat) (hbpp : 1 ≤ bpp) (prev L raw : List Nat) (j : Nat)
    (hagree : ∀ t, t < j → L.getD t 0 = raw.getD t 0) :
    predOf f bpp prev L j = predOf f bpp prev raw j := by
  have ha : (if bpp ≤ j then L.getD (j - bpp) 0 else 0) =
      (if bpp ≤ j then raw.getD (j - bpp) 0 else 0) := by
    by_cases h : bpp ≤ j
    · rw [if_pos h, if_pos h, hagree _ (by omega)]
    · rw [if_neg h, if_neg h]
  rcases f with _ | _ | _ | _ | _ | f
  · rfl
  · exact ha
  · rfl
  · show ((if bpp ≤ j then L.getD (j - bpp) 0 else 0) + prev.getD j 0) / 2 = _
    rw [ha]
    rfl
  · show paeth (if bpp ≤ j then L.getD (j - bpp) 0 else 0) _ _ = _
    rw [ha]
    rfl
  · rfl

theorem set_take_drop (raw enc : List Nat) (j : Nat) (hj : j < raw.length)
    (hlen : enc.length = raw.length) :
    (raw.take j ++ enc.drop j).set j (raw.getD j 0) =
      raw.take (j + 1) ++ enc.drop (j + 1) := by
  have hjt : (raw.take j).length = j := by rw [List.length_take]; omega
  rw [List.set_append_right j _ (by omega), hjt, Nat.sub_self,
    List.drop_eq_getElem_cons (by omega : j < enc.length)]
  show raw.take j ++ raw.getD j 0 :: enc.drop (j + 1) = _
  rw [List.take_succ, List.getD_eq_getElem raw 0 hj]
  have : raw[j]?.toList = [raw[j]] := by
    rw [List.getElem?_eq_getElem hj]
    rfl
  rw [this, List.append_assoc]
  rfl

theorem unfilter_inv_aux (f bpp : Nat) (hbpp : 1 ≤ bpp) (prev raw : List Nat)
    (hraw : ∀ b ∈ raw, b < 256) (hprev : ∀ b ∈ prev, b < 256)
    (hf : f = 1 ∨ f = 2 ∨ f = 3 ∨ f = 4) :
    ∀ j, j ≤ raw.length →
    (List.range j).foldl (unfilterStep f bpp prev) (filterScan f bpp prev raw) =
      raw.take j ++ (filterScan f bpp prev raw).drop j := by
  intro j
  induction j with
  | zero => intro _; simp
  | succ j ih =>
    intro hj
    have hjlt : j < raw.length := by omega
    have henclen : (filterScan f bpp prev raw).length = raw.length :=
      filterScan_length f bpp prev raw
    have hjt : (raw.take j).length = j := by rw [List.length_take]; omega
    rw [List.range_succ, List.foldl_append, ih (by omega), List.foldl_cons, List.foldl_nil,
      unfilterStep_pred f hf bpp prev _ j]
    have hagree : ∀ t, t < j →
        (raw.take j ++ (filterScan f bpp prev raw).drop j).getD t 0 = raw.getD t 0 := by
      intro t ht
      rw [List.getD_append _ _ _ t (by omega), List.getD_eq_getElem?_getD,
        List.getElem?_take_of_lt ht, ← List.getD_eq_getElem?_getD]
    have hLj : (raw.take j ++ (filterScan f bpp prev raw).drop j).getD j 0 =
        (filterScan f bpp prev raw).getD j 0 := by
      rw [List.getD_append_right _ _ _ j (by omega), hjt, Nat.sub_self,
        List.getD_eq_getElem?_getD, List.getElem?_drop, Nat.add_zero,
        ← List.getD_eq_getElem?_getD]
    rw [predOf_congr f bpp hbpp prev _ raw j hagree, hLj, filterScan_getD f bpp prev raw j hjlt]
    have hp : predOf f bpp prev raw j < 256 := predOf_lt f bpp prev raw j hraw hprev
    have hx : raw.getD j 0 < 256 := getD_lt_of_forall raw j hraw
    have hval : ((raw.getD j 0 + 256 - predOf f bpp prev raw j % 256) % 256 +
        predOf f bpp prev raw j) % 256 = raw.getD j 0 := by omega
    rw [hval]
    exact set_take_drop raw _ j hjlt henclen

theorem filterScan_zero (bpp : Nat) (prev raw : List Nat)
    (hraw : ∀ b ∈ raw, b < 256) :
    filterScan 0 bpp prev raw = raw := by
  refine List.ext_getElem (filterScan_length 0 bpp prev raw) ?_
  intro n h1 h2
  have hn : n < raw.length := h2
  show ((List.range raw.length).map
    (fun i => (raw.getD i 0 + 256 - predOf 0 bpp prev raw i % 256) % 256))[n] = raw[n]
  rw [List.getElem_map, List.getElem_range]
  show (raw.getD n 0 + 256 - 0 % 256) % 256 = raw[n]
  rw [List.getD_eq_getElem raw 0 hn]
  have : raw[n] < 256 := hraw _ (List.getElem_mem hn)
  omega

theorem foldl_unfilterStep_zero (bpp : Nat) (prev : List Nat) :
    ∀ (l : List Nat) (c : List Nat), l.foldl (unfilterStep 0 bpp prev) c = c := by
  intro l
  induction l with
  | nil => intro c; rfl
  | cons x xs ih =>
    intro c
    rw [List.foldl_cons]
    exact ih c

/-- C6: for every filter type `f ≤ 4`, every `bpp ≥ 1` and every pair of
same-length scanlines of bytes, applying the PNG forward filter and then the
decoder's in-place inverse-filter reconstruction returns exactly the original
raw bytes (inverse filters: src/sped.c lines 238–247; the forward filter is
modelled from the spec, as the encoder side is not part of the source). -/
theorem c6_filter_roundtrip (f bpp : Nat) (prev cur : List Nat)
    (hf : f ≤ 4) (hbpp : 1 ≤ bpp) (hlen : prev.length = cur.length)
    (hcur : ∀ b ∈ cur, b < 256) (hprev : ∀ b ∈ prev, b < 256) :
    unfilter f bpp prev (filterScan f bpp prev cur) = cur := by
  by_cases h0 : f = 1 ∨ f = 2 ∨ f = 3 ∨ f = 4
  · unfold unfilter
    rw [filterScan_length]
    rw [unfilter_inv_aux f bpp hbpp prev cur hcur hprev h0 cur.length (le_refl _)]
    rw [List.take_length]
    have : (filterScan f bpp prev cur).drop cur.length = [] := by
      rw [← filterScan_length f bpp prev cur, List.drop_length]
    rw [this, List.append_nil]
  · have hf0 : f = 0 := by omega
    subst hf0
    rw [filterScan_zero bpp prev cur hcur]
    exact foldl_unfilterStep_zero bpp prev _ cur

/-- Witness for C6: a concrete Paeth-filtered scanline round-trips. -/
theorem c6_filter_roundtrip_witness :
    unfilter 4 1 [1, 2, 3] (filterScan 4 1 [1, 2, 3] [10, 250, 7]) = [10, 250, 7] :=
  c6_filter_roundtrip 4 1 [1, 2, 3] [10, 250, 7] (by decide) (by decide) (by decide)
    (by decide) (by decide)

/-! ### C9: splitting the IDAT payload across two chunks -/

theorem lor_pow_eq_add : ∀ (n a b : Nat), b < 2 ^ n → 2 ^ n * a ||| b = 2 ^ n * a + b := by
  intro n
  induction n with
  | zero =>
    intro a b hb
    have hb0 : b = 0 := by omega
    subst hb0
    simp
  | succ n ih =>
    intro a b hb
    have h2 : 2 ^ (n + 1) = 2 ^ n * 2 := pow_succ 2 n
    have hbd : b / 2 < 2 ^ n := by omega
    have h1 : 2 ^ (n + 1) * a = Nat.bit false (2 ^ n * a) := by
      rw [Nat.bit_val]
      show 2 ^ (n + 1) * a = 2 * (2 ^ n * a) + Bool.toNat false
      rw [h2]
      ring_nf
      rfl
    rw [h1, ← Nat.bit_testBit_zero_shiftRight_one b, Nat.lor_bit, Bool.false_or,
      Nat.shiftRight_one, ih a (b / 2) hbd, Nat.bit_val, Nat.bit_val, Nat.bit_val]
    simp only [Bool.toNat_false]
    ring

theorem r32_append (l rest : List Nat) (h : 4 ≤ l.length) : r32 (l ++ rest) = r32 l := by
  unfold r32
  rw [List.getD_append _ _ _ 0 (by omega), List.getD_append _ _ _ 1 (by omega),
    List.getD_append _ _ _ 2 (by omega), List.getD_append _ _ _ 3 (by omega)]

theorem r32_be32 (n : Nat) (rest : List Nat) (hn : n < 2 ^ 32) :
    r32 (be32 n ++ rest) = n := by
  show ((n / 2 ^ 24 % 256) <<< 24) ||| ((n / 2 ^ 16 % 256) <<< 16) |||
      ((n / 2 ^ 8 % 256) <<< 8) ||| (n % 256) = n
  rw [Nat.shiftLeft_eq, Nat.shiftLeft_eq, Nat.shiftLeft_eq, Nat.lor_assoc, Nat.lor_assoc]
  rw [Nat.mul_comm (n / 2 ^ 8 % 256) (2 ^ 8)]
  rw [lor_pow_eq_add 8 (n / 2 ^ 8 % 256) (n % 256) (by omega)]
  rw [Nat.mul_comm (n / 2 ^ 16 % 256) (2 ^ 16)]
  rw [lor_pow_eq_add 16 (n / 2 ^ 16 % 256) (2 ^ 8 * (n / 2 ^ 8 % 256) + n % 256) (by omega)]
  rw [Nat.mul_comm (n / 2 ^ 24 % 256) (2 ^ 24)]
  rw [lor_pow_eq_add 24 (n / 2 ^ 24 % 256)
    (2 ^ 16 * (n / 2 ^ 16 % 256) + (2 ^ 8 * (n / 2 ^ 8 % 256) + n % 256)) (by omega)]
  omega

theorem chunkBytes_length (c : List Nat × List Nat) (h4 : (c.1 : List Nat).length = 4) :
    (chunkBytes c).length = 12 + c.2.length := by
  simp [chunkBytes, be32, h4]
  omega

theorem scanChunksF_chunks (ct : Nat) : ∀ (cs : List (List Nat × List Nat)) (st : ScanSt)
    (fuel : Nat),
    (∀ c ∈ cs, (c.1 : List Nat).length = 4 ∧ (c.2 : List Nat).length < 2 ^ 32) →
    (chunksBytes cs).length ≤ fuel →
    scanChunksF ct fuel st (chunksBytes cs) = scanList ct st cs := by
  intro cs
  induction cs with
  | nil =>
    intro st fuel _ _
    cases fuel with
    | zero => rfl
    | succ fuel => rfl
  | cons c cs ih =>
    intro st fuel hwf hfuel
    obtain ⟨h4, h32⟩ := hwf c (List.mem_cons_self _ _)
    have hcb : chunksBytes (c :: cs) = chunkBytes c ++ chunksBytes cs := rfl
    have hlen : (chunkBytes c).length = 12 + c.2.length := chunkBytes_length c h4
    have hcp : (chunksBytes (c :: cs)).length = 12 + c.2.length + (chunksBytes cs).length := by
      rw [hcb, List.length_append, hlen]
    cases fuel with
    | zero =>
      exfalso
      rw [hcp] at hfuel
      omega
    | succ fuel =>
      rw [hcb]
      show (if 12 ≤ (chunkBytes c ++ chunksBytes cs).length then
          if (chunkBytes c ++ chunksBytes cs).length <
              12 + r32 (chunkBytes c ++ chunksBytes cs) then st
          else if ((chunkBytes c ++ chunksBytes cs).drop 4).take 4 = tyIEND then st
          else scanChunksF ct fuel
            (dispatch ct st (((chunkBytes c ++ chunksBytes cs).drop 4).take 4)
              (((chunkBytes c ++ chunksBytes cs).drop 8).take
                (r32 (chunkBytes c ++ chunksBytes cs))))
            ((chunkBytes c ++ chunksBytes cs).drop (12 + r32 (chunkBytes c ++ chunksBytes cs)))
        else st) = scanList ct st (c :: cs)
      have hsplit : chunkBytes c ++ chunksBytes cs =
          be32 c.2.length ++ (c.1 ++ (c.2 ++ ([0, 0, 0, 0] ++ chunksBytes cs))) := by
        show (((be32 c.2.length ++ c.1) ++ c.2) ++ [0, 0, 0, 0]) ++ chunksBytes cs = _
        rw [List.append_assoc, List.append_assoc, List.append_assoc]
      have e1 : r32 (chunkBytes c ++ chunksBytes cs) = c.2.length := by
        rw [hsplit]
        exact r32_be32 _ _ h32
      have e2 : (chunkBytes c ++ chunksBytes cs).drop 4 =
          c.1 ++ (c.2 ++ ([0, 0, 0, 0] ++ chunksBytes cs)) := by
        rw [hsplit]
        exact List.drop_left' (by simp [be32])
      have e3 : ((chunkBytes c ++ chunksBytes cs).drop 4).take 4 = c.1 := by
        rw [e2]
        exact List.take_left' h4
      have e4 : ((chunkBytes c ++ chunksBytes cs).drop 8).take c.2.length = c.2 := by
        have h44 : (chunkBytes c ++ chunksBytes cs).drop 8 =
            ((chunkBytes c ++ chunksBytes cs).drop 4).drop 4 := by
          rw [List.drop_drop]
        rw [h44, e2, List.drop_left' h4]
        exact List.take_left' rfl
      have e5 : (chunkBytes c ++ chunksBytes cs).drop (12 + c.2.length) = chunksBytes cs :=
        List.drop_left' hlen
      rw [if_pos (by rw [List.length_append, hlen]; omega), e1,
        if_neg (by rw [List.length_append, hlen]; omega), e3, e4, e5]
      show _ = if c.1 = tyIEND then st else scanList ct (dispatch ct st c.1 c.2) cs
      by_cases hE : c.1 = tyIEND
      · rw [if_pos hE, if_pos hE]
      · rw [if_neg hE, if_neg hE]
        exact ih (dispatch ct st c.1 c.2) fuel (fun x hx => hwf x (List.mem_cons_of_mem _ hx))
          (by rw [hcp] at hfuel; omega)

theorem scanList_append (ct : Nat) : ∀ (l1 l2 : List (List Nat × List Nat)) (st : ScanSt),
    (∀ c ∈ l1, (c.1 : List Nat) ≠ tyIEND) →
    scanList ct st (l1 ++ l2) = scanList ct (scanList ct st l1) l2 := by
  intro l1
  induction l1 with
  | nil => intro l2 st _; rfl
  | cons c cs ih =>
    intro l2 st h
    have hE : (c.1 : List Nat) ≠ tyIEND := h c (List.mem_cons_self _ _)
    show (if c.1 = tyIEND then st else scanList ct (dispatch ct st c.1 c.2) (cs ++ l2)) = _
    rw [if_neg hE]
    show _ = scanList ct (if c.1 = tyIEND then st
      else scanList ct (dispatch ct st c.1 c.2) cs) l2
    rw [if_neg hE]
    exact ih l2 _ (fun x hx => h x (List.mem_cons_of_mem _ hx))

theorem scanList_idat_const (ct : Nat) : ∀ (cs : List (List Nat × List Nat)) (st : ScanSt),
    (∀ c ∈ cs, (c.1 : List Nat) ≠ tyIDAT) →
    (scanList ct st cs).idat = st.idat := by
  intro cs
  induction cs with
  | nil => intro st _; rfl
  | cons c cs ih =>
    intro st h
    show (if c.1 = tyIEND then st else scanList ct (dispatch ct st c.1 c.2) cs).idat = st.idat
    by_cases hE : c.1 = tyIEND
    · rw [if_pos hE]
    · rw [if_neg hE, ih _ (fun x hx => h x (List.mem_cons_of_mem _ hx))]
      unfold dispatch
      by_cases h1 : c.1 = tyPLTE
      · rw [if_pos h1]
      · rw [if_neg h1]
        by_cases h2 : c.1 = tyTRNS
        · rw [if_pos h2]
          by_cases h3 : ct = 3
          · rw [if_pos h3]
          · rw [if_neg h3]
        · rw [if_neg h2, if_neg (h c (List.mem_cons_self _ _))]

theorem dispatch_congr (ct : Nat) (s1 s2 : ScanSt) (ty data : List Nat)
    (hp : s1.pal = s2.pal) (ha : s1.palA = s2.palA) :
    (dispatch ct s1 ty data).pal = (dispatch ct s2 ty data).pal ∧
    (dispatch ct s1 ty data).palA = (dispatch ct s2 ty data).palA := by
  unfold dispatch
  by_cases h1 : ty = tyPLTE
  · rw [if_pos h1, if_pos h1]
    refine ⟨?_, ha⟩
    funext j
    show (if j < min (data.length / 3) 256 then _ else s1.pal j) =
      (if j < min (data.length / 3) 256 then _ else s2.pal j)
    by_cases hj : j < min (data.length / 3) 256
    · rw [if_pos hj, if_pos hj]
    · rw [if_neg hj, if_neg hj, hp]
  · rw [if_neg h1, if_neg h1]
    by_cases h2 : ty = tyTRNS
    · rw [if_pos h2, if_pos h2]
      by_cases h3 : ct = 3
      · rw [if_pos h3, if_pos h3]
        refine ⟨hp, ?_⟩
        funext j
        show (if j < min data.length 256 then data.getD j 0 else s1.palA j) =
          (if j < min data.length 256 then data.getD j 0 else s2.palA j)
        by_cases hj : j < min data.length 256
        · rw [if_pos hj, if_pos hj]
        · rw [if_neg hj, if_neg hj, ha]
      · rw [if_neg h3, if_neg h3]
        exact ⟨hp, ha⟩
    · rw [if_neg h2, if_neg h2]
      by_cases h4 : ty = tyIDAT
      · rw [if_pos h4, if_pos h4]
        have e1 : (if s1.idat.length < 64 then { s1 with idat := s1.idat ++ [data] }
            else s1).pal = s1.pal := by
          by_cases h : s1.idat.length < 64
          · rw [if_pos h]
          · rw [if_neg h]
        have e1a : (if s1.idat.length < 64 then { s1 with idat := s1.idat ++ [data] }
            else s1).palA = s1.palA := by
          by_cases h : s1.idat.length < 64
          · rw [if_pos h]
          · rw [if_neg h]
        have e2 : (if s2.idat.length < 64 then { s2 with idat := s2.idat ++ [data] }
            else s2).pal = s2.pal := by
          by_cases h : s2.idat.length < 64
          · rw [if_pos h]
          · rw [if_neg h]
        have e2a : (if s2.idat.length < 64 then { s2 with idat := s2.idat ++ [data] }
            else s2).palA = s2.palA := by
          by_cases h : s2.idat.length < 64
          · rw [if_pos h]
          · rw [if_neg h]
        rw [e1, e1a, e2, e2a]
        exact ⟨hp, ha⟩
      · rw [if_neg h4, if_neg h4]
        exact ⟨hp, ha⟩

theorem scanList_congr (ct : Nat) : ∀ (cs : List (List Nat × List Nat)) (s1 s2 : ScanSt),
    s1.pal = s2.pal → s1.palA = s2.palA →
    (scanList ct s1 cs).pal = (scanList ct s2 cs).pal ∧
    (scanList ct s1 cs).palA = (scanList ct s2 cs).palA := by
  intro cs
  induction cs with
  | nil => intro s1 s2 hp ha; exact ⟨hp, ha⟩
  | cons c cs ih =>
    intro s1 s2 hp ha
    show ((if c.1 = tyIEND then s1 else scanList ct (dispatch ct s1 c.1 c.2) cs).pal =
        (if c.1 = tyIEND then s2 else scanList ct (dispatch ct s2 c.1 c.2) cs).pal) ∧ _
    by_cases hE : c.1 = tyIEND
    · rw [if_pos hE, if_pos hE]
      show _ ∧ (if c.1 = tyIEND then s1 else _).palA = (if c.1 = tyIEND then s2 else _).palA
      rw [if_pos hE, if_pos hE]
      exact ⟨hp, ha⟩
    · rw [if_neg hE, if_neg hE]
      show _ ∧ (if c.1 = tyIEND then s1 else _).palA = (if c.1 = tyIEND then s2 else _).palA
      rw [if_neg hE, if_neg hE]
      obtain ⟨dp, da⟩ := dispatch_congr ct s1 s2 c.1 c.2 hp ha
      exact ih _ _ dp da

theorem decodeParams_mkPNG (pal0 : Nat → Nat × Nat × Nat) (ihdr : List Nat)
    (cs : List (List Nat × List Nat)) (scale : Nat)
    (h13 : ihdr.length = 13)
    (hcs : ∀ c ∈ cs, (c.1 : List Nat).length = 4 ∧ (c.2 : List Nat).length < 2 ^ 32) :
    decodeParams pal0 (mkPNG ihdr cs) scale =
      if ¬(scale = 1 ∨ scale = 2 ∨ scale = 4) then none
      else if ihdr.getD 10 0 ≠ 0 then none
      else if ihdr.getD 11 0 ≠ 0 then none
      else if ihdr.getD 12 0 ≠ 0 then none
      else if ihdr.getD 8 0 ≠ 8 ∧ ihdr.getD 8 0 ≠ 16 then none
      else if ihdr.getD 8 0 = 16 ∧ ihdr.getD 9 0 = 3 then none
      else if r32 ihdr = 0 ∨ r32 (ihdr.drop 4) = 0 then none
      else
        match bppOf (ihdr.getD 9 0) (ihdr.getD 8 0 / 8) with
        | none => none
        | some bpp =>
          if r32 ihdr / scale = 0 ∨ r32 (ihdr.drop 4) / scale = 0 then none
          else if (scanList (ihdr.getD 9 0) ⟨pal0, fun _ => 255, []⟩ cs).idat = [] then none
          else some (⟨r32 ihdr, r32 (ihdr.drop 4), ihdr.getD 8 0, ihdr.getD 9 0,
            ihdr.getD 8 0 / 8, bpp, r32 ihdr * bpp, scale, r32 ihdr / scale,
            r32 (ihdr.drop 4) / scale,
            (scanList (ihdr.getD 9 0) ⟨pal0, fun _ => 255, []⟩ cs).pal⟩,
            (scanList (ihdr.getD 9 0) ⟨pal0, fun _ => 255, []⟩ cs).idat) := by
  have hm : mkPNG ihdr cs =
      png_sig ++ (be32 13 ++ (tyIHDR ++ (ihdr ++ ([0, 0, 0, 0] ++ chunksBytes cs)))) := by
    show ((((png_sig ++ be32 13) ++ tyIHDR) ++ ihdr) ++ [0, 0, 0, 0]) ++ chunksBytes cs = _
    rw [List.append_assoc, List.append_assoc, List.append_assoc, List.append_assoc]
  have hlen : (mkPNG ihdr cs).length = 33 + (chunksBytes cs).length := by
    rw [hm]
    simp only [List.length_append]
    have e1 : png_sig.length = 8 := rfl
    have e2 : (be32 13).length = 4 := rfl
    have e3 : tyIHDR.length = 4 := rfl
    have e4 : ([0, 0, 0, 0] : List Nat).length = 4 := rfl
    omega
  have htake8 : (mkPNG ihdr cs).take 8 = png_sig := by
    rw [hm]
    exact List.take_left' rfl
  have hdrop8 : (mkPNG ihdr cs).drop 8 =
      be32 13 ++ (tyIHDR ++ (ihdr ++ ([0, 0, 0, 0] ++ chunksBytes cs))) := by
    rw [hm]
    exact List.drop_left' rfl
  have hA : ¬((mkPNG ihdr cs).length < 33 ∨ (mkPNG ihdr cs).take 8 ≠ png_sig) := by
    rw [not_or]
    exact ⟨by omega, fun h => h htake8⟩
  have hr13 : r32 ((mkPNG ihdr cs).drop 8) = 13 := by
    rw [hdrop8]
    exact r32_be32 13 _ (by decide)
  have hty : (((mkPNG ihdr cs).drop 8).drop 4).take 4 = tyIHDR := by
    rw [hdrop8, List.drop_left' (by decide : (be32 13).length = 4)]
    exact List.take_left' rfl
  have hB : ¬(r32 ((mkPNG ihdr cs).drop 8) ≠ 13 ∨
      (((mkPNG ihdr cs).drop 8).drop 4).take 4 ≠ tyIHDR) := by
    rw [not_or]
    exact ⟨fun h => h hr13, fun h => h hty⟩
  have hih : ihdrOf (mkPNG ihdr cs) = ihdr ++ ([0, 0, 0, 0] ++ chunksBytes cs) := by
    show ((mkPNG ihdr cs).drop 8).drop 8 = _
    rw [hdrop8]
    have h88 : (be32 13 ++ (tyIHDR ++ (ihdr ++ ([0, 0, 0, 0] ++ chunksBytes cs)))).drop 8 =
        ((be32 13 ++ (tyIHDR ++ (ihdr ++ ([0, 0, 0, 0] ++ chunksBytes cs)))).drop 4).drop 4 := by
      rw [List.drop_drop]
    rw [h88, List.drop_left' (by decide : (be32 13).length = 4),
      List.drop_left' (by decide : tyIHDR.length = 4)]
  have eg : ∀ j, j < 13 → (ihdrOf (mkPNG ihdr cs)).getD j 0 = ihdr.getD j 0 := by
    intro j hj
    rw [hih, List.getD_append _ _ _ j (by omega)]
  have er1 : r32 (ihdrOf (mkPNG ihdr cs)) = r32 ihdr := by
    rw [hih]
    exact r32_append _ _ (by omega)
  have er2 : r32 ((ihdrOf (mkPNG ihdr cs)).drop 4) = r32 (ihdr.drop 4) := by
    rw [hih, List.drop_append_of_le_length (by omega)]
    exact r32_append _ _ (by rw [List.length_drop]; omega)
  have es : (mkPNG ihdr cs).drop 33 = chunksBytes cs := by
    rw [hm]
    rw [show (33 : Nat) = png_sig.length + 25 from rfl, List.drop_append]
    rw [show (25 : Nat) = (be32 13).length + 21 from rfl, List.drop_append]
    rw [show (21 : Nat) = tyIHDR.length + 17 from rfl, List.drop_append]
    rw [show (17 : Nat) = ihdr.length + 4 from by rw [h13], List.drop_append]
    rfl
  have hscan : scanChunks (ihdr.getD 9 0) ⟨pal0, fun _ => 255, []⟩ (chunksBytes cs) =
      scanList (ihdr.getD 9 0) ⟨pal0, fun _ => 255, []⟩ cs := by
    show scanChunksF (ihdr.getD 9 0) (chunksBytes cs).length ⟨pal0, fun _ => 255, []⟩
      (chunksBytes cs) = _
    exact scanChunksF_chunks _ cs _ _ hcs (le_refl _)
  unfold decodeParams
  rw [if_neg hA, if_neg hB, eg 10 (by omega), eg 11 (by omega), eg 12 (by omega),
    eg 8 (by omega), eg 9 (by omega), er1, er2, es, hscan]

/-- C9: splitting the IDAT payload of a PNG into two IDAT chunks at any byte
offset `k` — keeping the concatenated payload identical — yields exactly the
same `sped_decode` result (return value and byte-identical callback sequence)
as the single-IDAT file, for every scale: the decoder concatenates all IDAT
payloads before decompressing (src/sped.c lines 203–215, 295–299).  `pre` and
`post` are the other chunks of the file; neither contains an IDAT chunk and
`pre` contains no IEND. -/
theorem c9_idat_split (D : List Nat → List Nat × Int) (pal0 : Nat → Nat × Nat × Nat)
    (ihdr : List Nat) (pre post : List (List Nat × List Nat)) (d : List Nat)
    (k : Nat) (scale : Nat)
    (h13 : ihdr.length = 13)
    (hd32 : d.length < 2 ^ 32)
    (hpre : ∀ c ∈ pre, (c.1 : List Nat).length = 4 ∧ (c.2 : List Nat).length < 2 ^ 32 ∧
      (c.1 : List Nat) ≠ tyIEND ∧ (c.1 : List Nat) ≠ tyIDAT)
    (hpost : ∀ c ∈ post, (c.1 : List Nat).length = 4 ∧ (c.2 : List Nat).length < 2 ^ 32 ∧
      (c.1 : List Nat) ≠ tyIDAT) :
    sped_decode D pal0 (mkPNG ihdr (pre ++ (tyIDAT, d) :: post)) scale =
    sped_decode D pal0 (mkPNG ihdr (pre ++ (tyIDAT, d.take k) :: (tyIDAT, d.drop k) :: post))
      scale := by
  have hpreI : ∀ c ∈ pre, (c.1 : List Nat) ≠ tyIEND := fun c hc => (hpre c hc).2.2.1
  have hpreD : ∀ c ∈ pre, (c.1 : List Nat) ≠ tyIDAT := fun c hc => (hpre c hc).2.2.2
  have hpostD : ∀ c ∈ post, (c.1 : List Nat) ≠ tyIDAT := fun c hc => (hpost c hc).2.2
  have hwf1 : ∀ c ∈ pre ++ (tyIDAT, d) :: post,
      (c.1 : List Nat).length = 4 ∧ (c.2 : List Nat).length < 2 ^ 32 := by
    intro c hc
    rcases List.mem_append.mp hc with h | h
    · exact ⟨(hpre c h).1, (hpre c h).2.1⟩
    · rcases List.mem_cons.mp h with h | h
      · rw [h]
        exact ⟨by show (tyIDAT : List Nat).length = 4; decide, hd32⟩
      · exact ⟨(hpost c h).1, (hpost c h).2.1⟩
  have hwf2 : ∀ c ∈ pre ++ (tyIDAT, d.take k) :: (tyIDAT, d.drop k) :: post,
      (c.1 : List Nat).length = 4 ∧ (c.2 : List Nat).length < 2 ^ 32 := by
    intro c hc
    rcases List.mem_append.mp hc with h | h
    · exact ⟨(hpre c h).1, (hpre c h).2.1⟩
    · rcases List.mem_cons.mp h with h | h
      · rw [h]
        refine ⟨by show (tyIDAT : List Nat).length = 4; decide, ?_⟩
        show (d.take k).length < 2 ^ 32
        rw [List.length_take]
        omega
      · rcases List.mem_cons.mp h with h | h
        · rw [h]
          refine ⟨by show (tyIDAT : List Nat).length = 4; decide, ?_⟩
          show (d.drop k).length < 2 ^ 32
          rw [List.length_drop]
          omega
        · exact ⟨(hpost c h).1, (hpost c h).2.1⟩
  -- scan-state facts at the relevant colour type
  have hstI : (scanList (ihdr.getD 9 0) ⟨pal0, fun _ => 255, []⟩ pre).idat = [] :=
    scanList_idat_const _ pre _ hpreD
  have hdisp1 : dispatch (ihdr.getD 9 0) (scanList (ihdr.getD 9 0) ⟨pal0, fun _ => 255, []⟩ pre)
      tyIDAT d =
      { scanList (ihdr.getD 9 0) ⟨pal0, fun _ => 255, []⟩ pre with idat := [d] } := by
    unfold dispatch
    rw [if_neg (by decide : ¬((tyIDAT : List Nat) = tyPLTE)),
      if_neg (by decide : ¬((tyIDAT : List Nat) = tyTRNS)),
      if_pos (rfl : (tyIDAT : List Nat) = tyIDAT), hstI,
      if_pos (by decide : ([] : List (List Nat)).length < 64)]
    rfl
  have hdisp2a : dispatch (ihdr.getD 9 0) (scanList (ihdr.getD 9 0) ⟨pal0, fun _ => 255, []⟩ pre)
      tyIDAT (d.take k) =
      { scanList (ihdr.getD 9 0) ⟨pal0, fun _ => 255, []⟩ pre with idat := [d.take k] } := by
    unfold dispatch
    rw [if_neg (by decide : ¬((tyIDAT : List Nat) = tyPLTE)),
      if_neg (by decide : ¬((tyIDAT : List Nat) = tyTRNS)),
      if_pos (rfl : (tyIDAT : List Nat) = tyIDAT), hstI,
      if_pos (by decide : ([] : List (List Nat)).length < 64)]
    rfl
  have hdisp2b : dispatch (ihdr.getD 9 0)
      { scanList (ihdr.getD 9 0) ⟨pal0, fun _ => 255, []⟩ pre with idat := [d.take k] }
      tyIDAT (d.drop k) =
      { scanList (ihdr.getD 9 0) ⟨pal0, fun _ => 255, []⟩ pre with
        idat := [d.take k, d.drop k] } := by
    unfold dispatch
    rw [if_neg (by decide : ¬((tyIDAT : List Nat) = tyPLTE)),
      if_neg (by decide : ¬((tyIDAT : List Nat) = tyTRNS)),
      if_pos (rfl : (tyIDAT : List Nat) = tyIDAT)]
    rw [if_pos (by simp)]
    rfl
  have h1 : scanList (ihdr.getD 9 0) ⟨pal0, fun _ => 255, []⟩ (pre ++ (tyIDAT, d) :: post) =
      scanList (ihdr.getD 9 0)
        { scanList (ihdr.getD 9 0) ⟨pal0, fun _ => 255, []⟩ pre with idat := [d] } post := by
    rw [scanList_append _ pre _ _ hpreI]
    show (if (tyIDAT : List Nat) = tyIEND then _ else _) = _
    rw [if_neg (by decide : ¬((tyIDAT : List Nat) = tyIEND)), hdisp1]
  have h2 : scanList (ihdr.getD 9 0) ⟨pal0, fun _ => 255, []⟩
      (pre ++ (tyIDAT, d.take k) :: (tyIDAT, d.drop k) :: post) =
      scanList (ihdr.getD 9 0)
        { scanList (ihdr.getD 9 0) ⟨pal0, fun _ => 255, []⟩ pre with
          idat := [d.take k, d.drop k] } post := by
    rw [scanList_append _ pre _ _ hpreI]
    show (if (tyIDAT : List Nat) = tyIEND then _ else _) = _
    rw [if_neg (by decide : ¬((tyIDAT : List Nat) = tyIEND)), hdisp2a]
    show (if (tyIDAT : List Nat) = tyIEND then _ else _) = _
    rw [if_neg (by decide : ¬((tyIDAT : List Nat) = tyIEND)), hdisp2b]
  have hS1 : (scanList (ihdr.getD 9 0) ⟨pal0, fun _ => 255, []⟩
      (pre ++ (tyIDAT, d) :: post)).idat = [d] := by
    rw [h1, scanList_idat_const _ post _ hpostD]
  have hS2 : (scanList (ihdr.getD 9 0) ⟨pal0, fun _ => 255, []⟩
      (pre ++ (tyIDAT, d.take k) :: (tyIDAT, d.drop k) :: post)).idat =
      [d.take k, d.drop k] := by
    rw [h2, scanList_idat_const _ post _ hpostD]
  have hpal : (scanList (ihdr.getD 9 0) ⟨pal0, fun _ => 255, []⟩
      (pre ++ (tyIDAT, d) :: post)).pal =
      (scanList (ihdr.getD 9 0) ⟨pal0, fun _ => 255, []⟩
        (pre ++ (tyIDAT, d.take k) :: (tyIDAT, d.drop k) :: post)).pal := by
    rw [h1, h2]
    refine (scanList_congr _ post _ _ ?_ ?_).1
    · rfl
    · rfl
  have hfl : ([d] : List (List Nat)).flatten = ([d.take k, d.drop k] : List (List Nat)).flatten := by
    show d ++ [] = d.take k ++ (d.drop k ++ [])
    rw [List.append_nil, List.append_nil, List.take_append_drop]
  unfold sped_decode
  rw [decodeParams_mkPNG pal0 ihdr _ scale h13 hwf1,
    decodeParams_mkPNG pal0 ihdr _ scale h13 hwf2, hS1, hS2, hpal]
  by_cases c1 : ¬(scale = 1 ∨ scale = 2 ∨ scale = 4)
  · rw [if_pos c1, if_pos c1]
  · rw [if_neg c1, if_neg c1]
    by_cases c2 : ihdr.getD 10 0 ≠ 0
    · rw [if_pos c2, if_pos c2]
    · rw [if_neg c2, if_neg c2]
      by_cases c3 : ihdr.getD 11 0 ≠ 0
      · rw [if_pos c3, if_pos c3]
      · rw [if_neg c3, if_neg c3]
        by_cases c4 : ihdr.getD 12 0 ≠ 0
        · rw [if_pos c4, if_pos c4]
        · rw [if_neg c4, if_neg c4]
          by_cases c5 : ihdr.getD 8 0 ≠ 8 ∧ ihdr.getD 8 0 ≠ 16
          · rw [if_pos c5, if_pos c5]
          · rw [if_neg c5, if_neg c5]
            by_cases c6 : ihdr.getD 8 0 = 16 ∧ ihdr.getD 9 0 = 3
            · rw [if_pos c6, if_pos c6]
            · rw [if_neg c6, if_neg c6]
              by_cases c7 : r32 ihdr = 0 ∨ r32 (ihdr.drop 4) = 0
              · rw [if_pos c7, if_pos c7]
              · rw [if_neg c7, if_neg c7]
                rcases hbpp : bppOf (ihdr.getD 9 0) (ihdr.getD 8 0 / 8) with _ | bpp
                · rfl
                · dsimp only []
                  by_cases c8 : r32 ihdr / scale = 0 ∨ r32 (ihdr.drop 4) / scale = 0
                  · rw [if_pos c8, if_pos c8]
                  · rw [if_neg c8, if_neg c8]
                    rw [if_neg (by simp : ¬([d] : List (List Nat)) = []),
                      if_neg (by simp : ¬([d.take k, d.drop k] : List (List Nat)) = [])]
                    dsimp only []
                    rw [hfl]

/-- Witness for C9: splitting the two-byte IDAT payload of a concrete file
after its first byte leaves the decode result unchanged. -/
theorem c9_idat_split_witness :
    sped_decode Dc pal0c (mkPNG ihdrC ([] ++ (tyIDAT, [1, 2]) :: [(tyIEND, [])])) 1 =
    sped_decode Dc pal0c
      (mkPNG ihdrC ([] ++ (tyIDAT, List.take 1 [1, 2]) ::
        (tyIDAT, List.drop 1 [1, 2]) :: [(tyIEND, [])])) 1 :=
  c9_idat_split Dc pal0c ihdrC [] [(tyIEND, [])] [1, 2] 1 1 (by decide) (by decide)
    (by intro c hc; cases hc) (by decide)

end Sped
